import Mathlib

/-!
Verification of the natural-language specification of the TextToSqlAgent
repository against its source.  The repository's core is the
LLM-output-to-SQL extraction pipeline in `app.py` (`generate_sql_qwen`),
plus column-name prettification, a try/except/finally database block, and
a seeding script (`db.py`).  All of these are pure string / state
transformations, embedded below over `List Char` (the ASCII fragment that
the Python code manipulates).  Python-specific primitives (`str.strip`,
`str.lower`, `str.title`, `str.split('\n')`, and the three fixed regular
expressions) are embedded as executable Lean functions.
-/

set_option linter.unusedVariables false

namespace TextToSql

/-- Whitespace in the sense of Python's `str.strip` / regex `\s`
(ASCII fragment). -/
def isSpace (c : Char) : Bool :=
  c == ' ' || c == '\t' || c == '\n' || c == '\r' || c == '\x0b' || c == '\x0c'

/-- ASCII lower-casing, as Python's `str.lower` acts on ASCII text. -/
def lowC (c : Char) : Char :=
  if 'A' ≤ c ∧ c ≤ 'Z' then Char.ofNat (c.toNat + 32) else c

/-- Python's `str.strip()`: remove leading and trailing whitespace. -/
def pyStrip (s : List Char) : List Char :=
  ((s.dropWhile isSpace).reverse.dropWhile isSpace).reverse

/-- Does `pat` (given lower-case) occur at the head of `s`, comparing
case-insensitively?  On success, return the remainder of `s`.  This is the
operational core of Python's case-insensitive regex literal matching and of
`str.lower().startswith(pat)`. -/
def ciDrop : List Char → List Char → Option (List Char)
  | [], s => some s
  | _ :: _, [] => none
  | p :: ps, c :: cs => if lowC c == p then ciDrop ps cs else none

/-- Boolean form of `ciDrop`. -/
def ciLeads (pat s : List Char) : Bool :=
  (ciDrop pat s).isSome

/-- Case-sensitive list-prefix test (used to express `str.endswith`). -/
def leadsWith : List Char → List Char → Bool
  | [], _ => true
  | _ :: _, [] => false
  | p :: ps, c :: cs => p == c && leadsWith ps cs

/-- Python's `str.endswith(pat)`. -/
def trailsWith (pat s : List Char) : Bool :=
  leadsWith pat.reverse s.reverse

/-- Python's `str.split('\n')`. -/
def splitNl : List Char → List (List Char)
  | [] => [[]]
  | c :: cs =>
    if c == '\n' then [] :: splitNl cs
    else
      match splitNl cs with
      | [] => [[c]]
      | l :: ls => (c :: l) :: ls

/-- Python's `' '.join(pieces)`. -/
def joinSpace : List (List Char) → List Char
  | [] => []
  | [x] => x
  | x :: y :: rest => x ++ ' ' :: joinSpace (y :: rest)

/-- The seven SQL leading keywords of `app.py`, lower-cased
(`sql_keywords` at `app.py:92`, also the alternation of the primary regex
at `app.py:78`). -/
def kwLC : List (List Char) :=
  [['s','e','l','e','c','t'], ['i','n','s','e','r','t'], ['u','p','d','a','t','e'],
   ['d','e','l','e','t','e'], ['c','r','e','a','t','e'], ['a','l','t','e','r'],
   ['d','r','o','p']]

/-- The same keywords in their upper-case source spelling, as character
lists (the spelling used inside the primary regex of `app.py:78`). -/
def kwUC : List (List Char) :=
  [['S','E','L','E','C','T'], ['I','N','S','E','R','T'], ['U','P','D','A','T','E'],
   ['D','E','L','E','T','E'], ['C','R','E','A','T','E'], ['A','L','T','E','R'],
   ['D','R','O','P']]

/-- Python's `s.lower().startswith(tuple(sql_keywords))` (`app.py:95` and
`app.py:109`). -/
def anyKwLeads (s : List Char) : Bool :=
  kwLC.any (fun k => ciLeads k s)

/-- Letters of the reasoning tag, with the closing angle bracket:
`think>`. -/
def thinkWord : List Char := ['t','h','i','n','k','>']

/-- One attempted match of the regex `</?think>` (case-insensitive) at the
current position (`app.py:69`).  On success, return the text after the
tag. -/
def thinkTag : List Char → Option (List Char)
  | [] => none
  | c :: rest =>
    if c = '<' then
      match rest with
      | [] => none
      | c2 :: r2 => if c2 = '/' then ciDrop thinkWord r2 else ciDrop thinkWord (c2 :: r2)
    else none

/-- Fuelled scan of `re.sub(r'</?think>', '', s, flags=IGNORECASE)`:
each matched tag is deleted, everything else (including the text enclosed
between a pair of tags) is kept. -/
def subThinkF : Nat → List Char → List Char
  | 0, s => s
  | _ + 1, [] => []
  | n + 1, c :: cs =>
    match thinkTag (c :: cs) with
    | some rest => subThinkF n rest
    | none => c :: subThinkF n cs

/-- The reasoning-tag stripping substitution of `app.py:69`. -/
def subThink (s : List Char) : List Char :=
  subThinkF s.length s

/-- One attempted match of the alternation `(```sql|```|SQL:)`
(case-insensitive) at the current position, in the source's alternation
order (`app.py:71`). -/
def fenceTag (s : List Char) : Option (List Char) :=
  match ciDrop ['`','`','`','s','q','l'] s with
  | some r => some r
  | none =>
    match ciDrop ['`','`','`'] s with
    | some r => some r
    | none => ciDrop ['s','q','l',':'] s

/-- Does a (possibly empty) character list end with a newline?  Used to
decide whether the position after a consumed `\s*` run is a line start. -/
def lastIsNl (l : List Char) : Bool :=
  match l.reverse with
  | '\n' :: _ => true
  | _ => false

/-- Fuelled scan of
`re.sub(r'^(```sql|```|SQL:)\s*', '', s, flags=IGNORECASE|MULTILINE)`
(`app.py:71`).  The `^` anchor restricts matches to line starts; on a
match, the tag and the following greedy whitespace run (which may include
newlines) are deleted and scanning resumes at the match end. -/
def subFenceF : Nat → Bool → List Char → List Char
  | 0, _, s => s
  | _ + 1, _, [] => []
  | n + 1, atLS, c :: cs =>
    match (if atLS then fenceTag (c :: cs) else none) with
    | some rest =>
      subFenceF n (lastIsNl (rest.takeWhile isSpace)) (rest.dropWhile isSpace)
    | none => c :: subFenceF n (c == '\n') cs

/-- The markdown-fence / `SQL:`-label stripping substitution of
`app.py:71`. -/
def subFence (s : List Char) : List Char :=
  subFenceF s.length true s

/-- The noise-stripping layer (`app.py:61`, `app.py:69`, `app.py:71`):
strip the raw completion, delete reasoning tags and strip, delete
line-anchored fences / `SQL:` labels and strip. -/
def cleanedOutput (content : List Char) : List Char :=
  pyStrip (subFence (pyStrip (subThink (pyStrip content))))

/-- The tail of the primary regex `\s+.*?(;|$)` after the greedy
whitespace run (`app.py:78`, flags `IGNORECASE|DOTALL|MULTILINE`): the
lazy `.*?` extends minimally until `;` matches (consuming it) or the
zero-width `$` matches, which under MULTILINE happens at the end of every
line as well as at the end of the text. -/
def lazyTail : List Char → List Char
  | [] => []
  | c :: cs =>
    if c == ';' then [';']
    else if c == '\n' then []
    else c :: lazyTail cs

/-- Try the keyword alternation `(SELECT|INSERT|UPDATE|DELETE|CREATE|ALTER|DROP)`
(case-insensitive) at the current position; on success return the matched
source characters and the remainder. -/
def tryKw : List (List Char) → List Char → Option (List Char × List Char)
  | [], _ => none
  | k :: ks, s =>
    match ciDrop k s with
    | some rest => some (s.take k.length, rest)
    | none => tryKw ks s

/-- One attempted match of the full primary regex
`^(SELECT|...|DROP)\s+.*?(;|$)` at a line-start position. -/
def tryPrimaryAt (s : List Char) : Option (List Char) :=
  match tryKw kwLC s with
  | none => none
  | some (k, rest) =>
    let ws := rest.takeWhile isSpace
    if ws.isEmpty then none
    else some (k ++ ws ++ lazyTail (rest.dropWhile isSpace))

/-- `re.search` of the primary regex (`app.py:77`): scan positions left to
right, attempting the anchored pattern at every line start. -/
def findPrimary : Bool → List Char → Option (List Char)
  | _, [] => none
  | atLS, c :: cs =>
    match (if atLS then tryPrimaryAt (c :: cs) else none) with
    | some m => some m
    | none => findPrimary (c == '\n') cs

/-- The line-by-line fallback search (`app.py:92`–`app.py:95`): find the
first line whose stripped, lower-cased form starts with a keyword. -/
def findFb : List (List Char) → Option (List Char × List (List Char))
  | [] => none
  | l :: ls =>
    if anyKwLeads (pyStrip l) then some (l, ls) else findFb ls

/-- The fallback accumulation (`app.py:96`–`app.py:103`): the found line,
stripped, followed by every immediately following non-blank line
(stripped), joined with single spaces, then stripped. -/
def fallbackExtract (c2 : List Char) : List Char :=
  match findFb (splitNl c2) with
  | none => []
  | some (l, ls) =>
    pyStrip (joinSpace (pyStrip l :: (ls.takeWhile (fun x => !(pyStrip x).isEmpty)).map pyStrip))

/-- The semicolon completion of the primary branch (`app.py:86`–`app.py:88`). -/
def ensureSemi (f : List Char) : List Char :=
  if trailsWith [';'] f then f else f ++ [';']

/-- Python's `s[:-3]`. -/
def dropLast3 (s : List Char) : List Char :=
  s.take (s.length - 3)

/-- The final normalization (`app.py:106`–`app.py:110`): strip a trailing
markdown fence if present, then append a semicolon when the candidate is
non-empty, lacks one, and starts (case-insensitively) with a keyword. -/
def finalNormalize (f : List Char) : List Char :=
  let f1 := if !f.isEmpty && trailsWith ['`','`','`'] f then pyStrip (dropLast3 f) else f
  if !f1.isEmpty && !trailsWith [';'] f1 && anyKwLeads f1 then f1 ++ [';'] else f1

/-- The complete post-processing of a raw completion inside
`generate_sql_qwen` (`app.py:61`–`app.py:113`). -/
def extractSql (content : List Char) : List Char :=
  let c2 := cleanedOutput content
  let fsql :=
    match findPrimary true c2 with
    | some m => ensureSemi (pyStrip m)
    | none => fallbackExtract c2
  finalNormalize fsql

/-- String-level wrapper of the extractor. -/
def extractSqlStr (s : String) : String :=
  ⟨extractSql s.data⟩

/-- The `generate_sql_qwen` function (`app.py:59`–`app.py:118`), with the
model-backend call abstracted: `.ok content` is a successful completion,
`.error e` is an exception raised by the `ollama.chat` call, which the
`except` branch turns into the empty string after displaying messages. -/
def generate_sql_qwen (backend : Except String String) : String :=
  match backend with
  | .error _ => ""
  | .ok content => extractSqlStr content

/-- The caller's routing of the generated SQL (`app.py:140` and
`app.py:187`–`app.py:188`): Python's `if generated_sql:` is an emptiness
test. -/
inductive FlowStep where
  | showSqlAndExecute (sql : String)
  | genFailedWarning
  deriving DecidableEq

/-- Route on the single truthiness check of `generated_sql`
(`app.py:140`). -/
def routeGenerated (s : String) : FlowStep :=
  if s = "" then .genFailedWarning else .showSqlAndExecute s

/-- ASCII letter test, as Python's `str.title` classifies cased
characters in the ASCII fragment. -/
def isAlphaC (c : Char) : Bool :=
  ('A' ≤ c ∧ c ≤ 'Z') || ('a' ≤ c ∧ c ≤ 'z')

/-- ASCII upper-casing of a single character. -/
def upC (c : Char) : Char :=
  if 'a' ≤ c ∧ c ≤ 'z' then Char.ofNat (c.toNat - 32) else c

/-- Scanner for Python's `str.title`: a letter is upper-cased when the
previous character is not a letter and lower-cased otherwise; other
characters pass through. -/
def pyTitleGo : Bool → List Char → List Char
  | _, [] => []
  | prevAlpha, c :: cs =>
    (if isAlphaC c then (if prevAlpha then lowC c else upC c) else c) :: pyTitleGo (isAlphaC c) cs

/-- Python's `str.title()` (ASCII fragment). -/
def pyTitle (s : List Char) : List Char :=
  pyTitleGo false s

/-- Python's `col.replace('_', ' ')` (`app.py:160` etc.). -/
def underscoreSp (s : List Char) : List Char :=
  s.map (fun c => if c == '_' then ' ' else c)

/-- The shared tail of every display rewrite:
`field.replace('_', ' ').title()`. -/
def titled (s : List Char) : List Char :=
  pyTitle (underscoreSp s)

/-- The aggregate field slice `col[len(fn ++ "("):-1]` (`app.py:159`
etc.): drop the function prefix and the final closing parenthesis. -/
def aggField (n : Nat) (col : List Char) : List Char :=
  (col.drop n).dropLast

/-- The column-name prettification of `app.py:156`–`app.py:174`
(`cleaned_col_names` loop body): aggregate-style names get a readable
label, all other names only get underscores replaced and title-casing. -/
def cleanedColName (col : List Char) : List Char :=
  if ciLeads ['s','u','m','('] col && trailsWith [')'] col then
    ['T','o','t','a','l',' '] ++ titled (aggField 4 col)
  else if ciLeads ['c','o','u','n','t','('] col && trailsWith [')'] col then
    ['N','u','m','b','e','r',' ','o','f',' '] ++ titled (aggField 6 col)
  else if ciLeads ['a','v','g','('] col && trailsWith [')'] col then
    ['A','v','e','r','a','g','e',' '] ++ titled (aggField 4 col)
  else if ciLeads ['m','a','x','('] col && trailsWith [')'] col then
    ['M','a','x','i','m','u','m',' '] ++ titled (aggField 4 col)
  else if ciLeads ['m','i','n','('] col && trailsWith [')'] col then
    ['M','i','n','i','m','u','m',' '] ++ titled (aggField 4 col)
  else titled col

/-- String-level wrapper of the column prettification. -/
def cleanedColNameStr (s : String) : String :=
  ⟨cleanedColName s.data⟩

/-- A result row, kept opaque: the presentation layer never inspects row
values. -/
abbrev Row := List String

/-- Building the displayed frame (`app.py:153`–`app.py:176`): column names
are prettified, rows are passed to the DataFrame unchanged and in
order. -/
def presentFrame (cols : List String) (rows : List Row) : List String × List Row :=
  (cols.map cleanedColNameStr, rows)

/-- Messages the query-execution block can emit. -/
inductive UiMsg where
  | queryResults (cols : List String) (rows : List Row)
  | noResults
  | dbError (msg : String)
  | invalidSqlWarning
  deriving DecidableEq

/-- State of the execution block: whether the SQLite connection is open,
and the messages displayed so far. -/
structure ExecState where
  connOpen : Bool
  msgs : List UiMsg
  deriving DecidableEq

/-- The query-execution block of `app.py:144`–`app.py:186`: open a
connection, execute and fetch (the database abstracted as `dbExec`),
display results or the two error messages in the `except sqlite3.Error`
branch, and in the `finally` branch close the connection if it was
opened. -/
def runQueryBlock (dbExec : String → Except String (List Row × List String)) (sql : String) :
    ExecState :=
  let afterConnect : ExecState := { connOpen := true, msgs := [] }
  let afterBody : ExecState :=
    match dbExec sql with
    | .ok (results, colNames) =>
      if results.isEmpty then { afterConnect with msgs := [.noResults] }
      else
        { afterConnect with
          msgs := [.queryResults (presentFrame colNames results).1 (presentFrame colNames results).2] }
    | .error m => { afterConnect with msgs := [.dbError m, .invalidSqlWarning] }
  if afterBody.connOpen then { afterBody with connOpen := false } else afterBody

/-- A row of the `products` table as seeded by `db.py` (price recorded in
cents to keep the embedding exact). -/
structure Product where
  product_name : String
  category : String
  priceCents : Int
  stock_quantity : Int
  deriving DecidableEq

/-- The seven fixed sample rows inserted by `db.py:34`–`db.py:44`. -/
def sampleProducts : List Product :=
  [⟨"Laptop Pro", "Electronics", 120000, 50⟩,
   ⟨"Mechanical Keyboard", "Electronics", 15000, 120⟩,
   ⟨"Wireless Mouse", "Accessories", 3550, 300⟩,
   ⟨"USB-C Hub", "Accessories", 5000, 80⟩,
   ⟨"Monitor 27-inch", "Electronics", 30000, 70⟩,
   ⟨"Ergonomic Chair", "Furniture", 35000, 30⟩,
   ⟨"Webcam Full HD", "Accessories", 7500, 90⟩]

/-- The database file: it may or may not yet contain the `products`
table. -/
structure DbFile where
  productsTable : Option (List Product)
  deriving DecidableEq

/-- The deletion step of `db.py:9`–`db.py:10`: if the file exists it is
removed; afterwards there is no file at the path in either case. -/
def removeIfExists : Option DbFile → Option DbFile
  | some _ => none
  | none => none

/-- The `CREATE TABLE products` statement of `db.py:21`–`db.py:30`
(connecting creates the file if absent; creating an existing table is a
database error). -/
def createProductsTable : Option DbFile → Except String DbFile
  | none => .ok ⟨some []⟩
  | some db =>
    match db.productsTable with
    | some _ => .error "table products already exists"
    | none => .ok ⟨some []⟩

/-- The `INSERT INTO products ... VALUES ...` statement of
`db.py:34`–`db.py:44`. -/
def insertSampleRows (db : DbFile) : DbFile :=
  ⟨db.productsTable.map (fun t => t ++ sampleProducts)⟩

/-- One run of the seeding script `db.py` against a filesystem state. -/
def runSeed (fs : Option DbFile) : Except String DbFile :=
  match createProductsTable (removeIfExists fs) with
  | .error e => .error e
  | .ok db => .ok (insertSampleRows db)

/-- Number of rows in the `products` table of a database file. -/
def rowCount (db : DbFile) : Nat :=
  (db.productsTable.getD []).length

/-! ### Helper lemmas about characters and case-insensitive matching -/

theorem isSpace_cases {c : Char} (h : isSpace c = true) :
    c = ' ' ∨ c = '\t' ∨ c = '\n' ∨ c = '\r' ∨ c = '\x0b' ∨ c = '\x0c' := by
  simp only [isSpace, Bool.or_eq_true, beq_iff_eq] at h
  tauto

theorem lowC_space {c : Char} (h : isSpace c = true) : lowC c = c := by
  rcases isSpace_cases h with h | h | h | h | h | h <;> subst h <;> decide

theorem ciDrop_decomp :
    ∀ (k s r : List Char), ciDrop k s = some r → ∃ a, s = a ++ r ∧ a.map lowC = k := by
  intro k
  induction k with
  | nil =>
    intro s r h
    simp only [ciDrop, Option.some.injEq] at h
    exact ⟨[], by simp [h]⟩
  | cons p ps ih =>
    intro s r h
    cases s with
    | nil => simp [ciDrop] at h
    | cons c cs =>
      simp only [ciDrop] at h
      by_cases hc : lowC c == p
      · rw [if_pos hc] at h
        obtain ⟨a, ha, hmap⟩ := ih cs r h
        exact ⟨c :: a, by simp [ha], by simp [hmap, beq_iff_eq.mp hc]⟩
      · rw [if_neg hc] at h
        exact absurd h (by simp)

theorem ciDrop_of_map (k a r : List Char) (h : a.map lowC = k) :
    ciDrop k (a ++ r) = some r := by
  induction a generalizing k with
  | nil => simp at h; subst h; rfl
  | cons c cs ih =>
    subst h
    simp only [List.map_cons, List.cons_append, ciDrop, beq_self_eq_true, if_pos]
    exact ih _ rfl

theorem ciLeads_append (k a r : List Char) (h : a.map lowC = k) :
    ciLeads k (a ++ r) = true := by
  simp [ciLeads, ciDrop_of_map k a r h]

/-- The matched characters of a keyword occurrence contain only characters
whose lower-casing lies in the keyword. -/
theorem mem_of_map_lowC {a k : List Char} (h : a.map lowC = k) {c : Char} (hc : c ∈ a) :
    lowC c ∈ k := by
  subst h
  exact List.mem_map_of_mem lowC hc

/-- Decidable facts about the keyword tables. -/
theorem kwLC_facts :
    ∀ k ∈ kwLC, k ≠ [] ∧ ' ' ∉ k ∧ '\t' ∉ k ∧ '\n' ∉ k ∧ '\r' ∉ k ∧
      '\x0b' ∉ k ∧ '\x0c' ∉ k ∧ '`' ∉ k ∧ ';' ∉ k ∧ '<' ∉ k := by
  decide

theorem kw_no_space {k : List Char} (hk : k ∈ kwLC) {c : Char}
    (hc : lowC c ∈ k) (hs : isSpace c = true) : False := by
  rw [lowC_space hs] at hc
  obtain ⟨-, h1, h2, h3, h4, h5, h6, -⟩ := kwLC_facts k hk
  rcases isSpace_cases hs with h | h | h | h | h | h <;> subst h <;> tauto

theorem kw_no_tick {k : List Char} (hk : k ∈ kwLC) {c : Char}
    (hc : lowC c ∈ k) (hs : c = '`') : False := by
  subst hs
  have : lowC '`' = '`' := by decide
  rw [this] at hc
  exact (kwLC_facts k hk).2.2.2.2.2.2.2.1 hc

theorem kw_no_nl {k : List Char} (hk : k ∈ kwLC) {c : Char}
    (hc : lowC c ∈ k) (hs : c = '\n') : False := by
  subst hs
  have : lowC '\n' = '\n' := by decide
  rw [this] at hc
  exact (kwLC_facts k hk).2.2.2.1 hc

/-! ### Helper lemmas about `pyStrip`, `leadsWith` and `trailsWith` -/

theorem dropWhile_cons_neg {α : Type} {p : α → Bool} {c : α} {l : List α} (h : p c = false) :
    (c :: l).dropWhile p = c :: l := by
  simp [List.dropWhile_cons, h]

/-- Stripping a list that starts with a non-space block keeps the block as
a prefix. -/
theorem pyStrip_decomp (a r : List Char) (ha : a ≠ [])
    (hns : ∀ c ∈ a, isSpace c = false) :
    ∃ r2, pyStrip (a ++ r) = a ++ r2 := by
  obtain ⟨c, a', rfl⟩ : ∃ c a', a = c :: a' := by
    cases a with
    | nil => exact absurd rfl ha
    | cons c a' => exact ⟨c, a', rfl⟩
  unfold pyStrip
  rw [List.cons_append, dropWhile_cons_neg (hns c (by simp)), ← List.cons_append,
    List.reverse_append, List.dropWhile_append]
  by_cases h : (r.reverse.dropWhile isSpace).isEmpty = true
  · rw [if_pos h]
    have hrev : (c :: a').reverse.dropWhile isSpace = (c :: a').reverse := by
      obtain ⟨d, t, hdt⟩ : ∃ d t, (c :: a').reverse = d :: t := by
        cases hrv : (c :: a').reverse with
        | nil => exact absurd hrv (by simp)
        | cons d t => exact ⟨d, t, rfl⟩
      have hd : d ∈ c :: a' := by
        rw [← List.mem_reverse, hdt]; simp
      rw [hdt, dropWhile_cons_neg (hns d hd)]
    rw [hrev]
    exact ⟨[], by simp⟩
  · rw [if_neg h]
    exact ⟨(r.reverse.dropWhile isSpace).reverse, by simp⟩

theorem leadsWith_single {c : Char} {l : List Char} :
    leadsWith [c] l = true ↔ ∃ u, l = c :: u := by
  cases l with
  | nil => simp [leadsWith]
  | cons x u =>
    simp only [leadsWith, Bool.and_true]
    constructor
    · intro h; exact ⟨u, by rw [beq_iff_eq.mp h]⟩
    · rintro ⟨u', hu⟩
      injection hu with h1 h2
      simp [h1]

theorem trailsWith_single {c : Char} {s : List Char} :
    trailsWith [c] s = true ↔ ∃ t, s = t ++ [c] := by
  show leadsWith [c] s.reverse = true ↔ _
  rw [leadsWith_single]
  constructor
  · rintro ⟨u, hu⟩
    exact ⟨u.reverse, by rw [← List.reverse_reverse s, hu]; simp⟩
  · rintro ⟨t, rfl⟩
    exact ⟨t.reverse, by simp⟩

theorem trailsWith_concat (c : Char) (t : List Char) :
    trailsWith [c] (t ++ [c]) = true :=
  trailsWith_single.mpr ⟨t, rfl⟩

/-- A candidate that ends with the statement terminator does not end with
a markdown fence. -/
theorem tick_false_of_semi {s : List Char} (h : trailsWith [';'] s = true) :
    trailsWith ['`','`','`'] s = false := by
  obtain ⟨t, rfl⟩ := trailsWith_single.mp h
  show leadsWith ['`','`','`'] (t ++ [';']).reverse = false
  rw [List.reverse_append]
  simp [leadsWith]

theorem nonempty_of_trailsWith {c : Char} {s : List Char}
    (h : trailsWith [c] s = true) : s.isEmpty = false := by
  obtain ⟨t, rfl⟩ := trailsWith_single.mp h
  simp

theorem ensureSemi_of_semi {f : List Char} (h : trailsWith [';'] f = true) :
    ensureSemi f = f := by
  simp [ensureSemi, h]

theorem ensureSemi_of_no_semi {f : List Char} (h : trailsWith [';'] f = false) :
    ensureSemi f = f ++ [';'] := by
  simp [ensureSemi, h]

theorem ensureSemi_trails (f : List Char) : trailsWith [';'] (ensureSemi f) = true := by
  by_cases h : trailsWith [';'] f = true
  · rw [ensureSemi_of_semi h]; exact h
  · rw [ensureSemi_of_no_semi (by simpa using h)]
    exact trailsWith_concat ';' f

/-- The final normalization is the identity on candidates that already end
with a semicolon. -/
theorem finalNormalize_of_semi {f : List Char} (h : trailsWith [';'] f = true) :
    finalNormalize f = f := by
  unfold finalNormalize
  rw [tick_false_of_semi h]
  simp [h]

theorem finalNormalize_nil : finalNormalize [] = [] := by
  rfl

/-! ### Helper lemmas about `splitNl` and the primary search -/

theorem splitNl_ne_nil : ∀ s : List Char, splitNl s ≠ [] := by
  intro s
  cases s with
  | nil => simp [splitNl]
  | cons c cs =>
    simp only [splitNl]
    by_cases h : c == '\n'
    · simp [h]
    · rw [if_neg h]
      cases splitNl cs <;> simp

theorem takeWhile_append_of_all {α : Type} (p : α → Bool) (a r : List α)
    (h : ∀ x ∈ a, p x = true) :
    (a ++ r).takeWhile p = a ++ r.takeWhile p := by
  induction a with
  | nil => simp
  | cons c cs ih =>
    simp only [List.cons_append, List.takeWhile_cons, h c (by simp), if_pos]
    rw [ih (fun x hx => h x (by simp [hx]))]

theorem splitNl_headD : ∀ s : List Char,
    (splitNl s).headD [] = s.takeWhile (fun c => c != '\n') := by
  intro s
  induction s with
  | nil => rfl
  | cons c cs ih =>
    simp only [splitNl]
    by_cases h : c == '\n'
    · rw [if_pos h]
      have : (c != '\n') = false := by simp_all
      simp [List.takeWhile_cons, this]
    · rw [if_neg h]
      have hne : (c != '\n') = true := by simp_all
      obtain ⟨l, ls, hls⟩ : ∃ l ls, splitNl cs = l :: ls := by
        cases hq : splitNl cs with
        | nil => exact absurd hq (splitNl_ne_nil cs)
        | cons l ls => exact ⟨l, ls, rfl⟩
      rw [hls]
      rw [hls] at ih
      simp only [List.headD_cons] at ih ⊢
      simp [List.takeWhile_cons, hne, ih]

theorem splitNl_tail_of_ne : ∀ (c : Char) (cs : List Char), (c == '\n') = false →
    (splitNl (c :: cs)).tail = (splitNl cs).tail := by
  intro c cs h
  simp only [splitNl, h, Bool.false_eq_true, if_false]
  cases hq : splitNl cs with
  | nil => exact absurd hq (splitNl_ne_nil cs)
  | cons l ls => simp

theorem splitNl_nl (cs : List Char) : splitNl ('\n' :: cs) = [] :: splitNl cs := by
  simp [splitNl]

theorem tryKw_decomp : ∀ (ks : List (List Char)) (s : List Char) (k rest : List Char),
    tryKw ks s = some (k, rest) →
    ∃ kw ∈ ks, ciDrop kw s = some rest ∧ k = s.take kw.length := by
  intro ks
  induction ks with
  | nil => intro s k rest h; simp [tryKw] at h
  | cons q qs ih =>
    intro s k rest h
    simp only [tryKw] at h
    cases hq : ciDrop q s with
    | some r =>
      rw [hq] at h
      simp only [Option.some.injEq, Prod.mk.injEq] at h
      exact ⟨q, by simp, by rw [← h.2]; exact hq, h.1.symm⟩
    | none =>
      rw [hq] at h
      obtain ⟨kw, hkw, hd, hk⟩ := ih s k rest h
      exact ⟨kw, by simp [hkw], hd, hk⟩

/-- A successful anchored primary match decomposes the text at that
position into the case-insensitively matched keyword, a non-empty
whitespace run, and the lazily captured tail. -/
theorem tryPrimaryAt_decomp {s m : List Char} (h : tryPrimaryAt s = some m) :
    ∃ kw a rest, kw ∈ kwLC ∧ s = a ++ rest ∧ a.map lowC = kw ∧
      (rest.takeWhile isSpace).isEmpty = false ∧
      m = a ++ rest.takeWhile isSpace ++ lazyTail (rest.dropWhile isSpace) := by
  unfold tryPrimaryAt at h
  cases hk : tryKw kwLC s with
  | none => rw [hk] at h; exact absurd h (by simp)
  | some kr =>
    obtain ⟨k, rest⟩ := kr
    rw [hk] at h
    simp only at h
    by_cases hws : (rest.takeWhile isSpace).isEmpty = true
    · rw [if_pos hws] at h; exact absurd h (by simp)
    · rw [if_neg hws] at h
      simp only [Option.some.injEq] at h
      obtain ⟨kw, hkw, hd, hke⟩ := tryKw_decomp kwLC s k rest hk
      obtain ⟨a, ha, hmap⟩ := ciDrop_decomp kw s rest hd
      have hlen : kw.length = a.length := by rw [← hmap]; simp
      have hka : k = a := by
        rw [hke, ha, hlen, List.take_left]
      exact ⟨kw, a, rest, hkw, ha, hmap, by simpa using hws, by rw [← h, hka]⟩

/-- A successful primary search happens at a line start: the text
decomposes into a (possibly empty) scanned part ending in a newline and a
suffix on which the anchored pattern matches. -/
theorem findPrimary_decomp : ∀ (atLS : Bool) (s m : List Char),
    findPrimary atLS s = some m →
    ∃ pre t, s = pre ++ t ∧ tryPrimaryAt t = some m ∧
      ((atLS = true ∧ pre = []) ∨ trailsWith ['\n'] pre = true) := by
  intro atLS s
  induction s generalizing atLS with
  | nil => intro m h; simp [findPrimary] at h
  | cons c cs ih =>
    intro m h
    simp only [findPrimary] at h
    split at h
    · rename_i m' heq
      have hm : m' = m := by injection h
      subst hm
      by_cases hA : atLS = true
      · rw [if_pos hA] at heq
        exact ⟨[], c :: cs, by simp, heq, Or.inl ⟨hA, rfl⟩⟩
      · rw [if_neg hA] at heq
        exact absurd heq (by simp)
    · rename_i heq
      obtain ⟨pre', t, hsplit, htry, hcond⟩ := ih (c == '\n') m h
      refine ⟨c :: pre', t, by simp [hsplit], htry, Or.inr ?_⟩
      rcases hcond with ⟨hc, rfl⟩ | hc
      · have : c = '\n' := by simpa using hc
        subst this
        exact trailsWith_concat '\n' []
      · obtain ⟨t', rfl⟩ := trailsWith_single.mp hc
        exact trailsWith_concat '\n' (c :: t')

theorem anyKw_of_ciLeads {kw s : List Char} (hk : kw ∈ kwLC) (h : ciLeads kw s = true) :
    anyKwLeads s = true :=
  List.any_eq_true.mpr ⟨kw, hk, h⟩

/-- Properties of the block of source characters matched against a
keyword. -/
theorem kw_no_lt {k : List Char} (hk : k ∈ kwLC) {c : Char}
    (hc : lowC c ∈ k) (hs : c = '<') : False := by
  subst hs
  have : lowC '<' = '<' := by decide
  rw [this] at hc
  exact (kwLC_facts k hk).2.2.2.2.2.2.2.2.2 hc

theorem kw_block_props {a kw : List Char} (hmap : a.map lowC = kw) (hk : kw ∈ kwLC) :
    a ≠ [] ∧ (∀ c ∈ a, isSpace c = false) ∧ (∀ c ∈ a, c ≠ '`') ∧ (∀ c ∈ a, c ≠ '\n') ∧
      (∀ c ∈ a, c ≠ '<') := by
  refine ⟨?_, ?_, ?_, ?_, ?_⟩
  · intro hnil
    subst hnil
    exact (kwLC_facts kw hk).1 hmap.symm
  · intro c hc
    by_contra hcon
    exact kw_no_space hk (mem_of_map_lowC hmap hc) (by simpa using hcon)
  · intro c hc hcon
    exact kw_no_tick hk (mem_of_map_lowC hmap hc) hcon
  · intro c hc hcon
    exact kw_no_nl hk (mem_of_map_lowC hmap hc) hcon
  · intro c hc hcon
    exact kw_no_lt hk (mem_of_map_lowC hmap hc) hcon

/-- A successful anchored primary match forces the line it starts on to
carry a keyword (up to stripping and lower-casing). -/
theorem tryPrimaryAt_firstline {s m : List Char} (h : tryPrimaryAt s = some m) :
    anyKwLeads (pyStrip (s.takeWhile (fun c => c != '\n'))) = true := by
  obtain ⟨kw, a, rest, hkw, rfl, hmap, -, -⟩ := tryPrimaryAt_decomp h
  obtain ⟨hne, hns, -, hnl, -⟩ := kw_block_props hmap hkw
  rw [takeWhile_append_of_all _ a rest (fun c hc => by simpa using hnl c hc)]
  obtain ⟨r2, hr2⟩ := pyStrip_decomp a (rest.takeWhile (fun c => c != '\n')) hne hns
  rw [hr2]
  exact anyKw_of_ciLeads hkw (ciLeads_append kw a r2 hmap)

/-- When no line of the text carries a keyword after stripping, the
primary regex search fails. -/
theorem findPrimary_none_aux : ∀ (s : List Char) (atLS : Bool),
    (atLS = true → anyKwLeads (pyStrip ((splitNl s).headD [])) = false) →
    (∀ l ∈ (splitNl s).tail, anyKwLeads (pyStrip l) = false) →
    findPrimary atLS s = none := by
  intro s
  induction s with
  | nil => intro atLS h1 h2; rfl
  | cons c cs ih =>
    intro atLS h1 h2
    have hif : (if atLS then tryPrimaryAt (c :: cs) else none) = none := by
      by_cases hA : atLS = true
      · rw [if_pos hA]
        cases hT : tryPrimaryAt (c :: cs) with
        | none => rfl
        | some m =>
          have := tryPrimaryAt_firstline hT
          rw [← splitNl_headD] at this
          rw [h1 hA] at this
          exact absurd this (by simp)
      · rw [if_neg hA]
    simp only [findPrimary, hif]
    by_cases hc : (c == '\n') = true
    · have hceq : c = '\n' := by simpa using hc
      subst hceq
      rw [splitNl_nl] at h2
      simp only [List.tail_cons] at h2
      refine ih true ?_ ?_
      · intro _
        obtain ⟨l, ls, hls⟩ : ∃ l ls, splitNl cs = l :: ls := by
          cases hq : splitNl cs with
          | nil => exact absurd hq (splitNl_ne_nil cs)
          | cons l ls => exact ⟨l, ls, rfl⟩
        rw [hls]
        exact h2 l (by rw [hls]; simp)
      · intro l hl
        exact h2 l (List.mem_of_mem_tail hl)
    · have hc' : (c == '\n') = false := by simpa using hc
      rw [splitNl_tail_of_ne c cs hc'] at h2
      refine ih (c == '\n') ?_ h2
      intro hcc
      exact absurd hcc (by simp [hc'])

theorem findPrimary_none (s : List Char)
    (h : ∀ l ∈ splitNl s, anyKwLeads (pyStrip l) = false) :
    findPrimary true s = none := by
  refine findPrimary_none_aux s true ?_ ?_
  · intro _
    obtain ⟨l, ls, hls⟩ : ∃ l ls, splitNl s = l :: ls := by
      cases hq : splitNl s with
      | nil => exact absurd hq (splitNl_ne_nil s)
      | cons l ls => exact ⟨l, ls, rfl⟩
    rw [hls]
    exact h l (by rw [hls]; simp)
  · intro l hl
    exact h l (List.mem_of_mem_tail hl)

/-! ### Helper lemmas about the fallback layer -/

theorem findFb_none (ls : List (List Char))
    (h : ∀ l ∈ ls, anyKwLeads (pyStrip l) = false) :
    findFb ls = none := by
  induction ls with
  | nil => rfl
  | cons l ls ih =>
    simp only [findFb]
    rw [h l (by simp), if_neg (by simp)]
    exact ih (fun x hx => h x (by simp [hx]))

theorem findFb_some : ∀ (ls : List (List Char)) (l : List Char) (rest : List (List Char)),
    findFb ls = some (l, rest) → anyKwLeads (pyStrip l) = true := by
  intro ls
  induction ls with
  | nil => intro l rest h; simp [findFb] at h
  | cons x xs ih =>
    intro l rest h
    simp only [findFb] at h
    by_cases hx : anyKwLeads (pyStrip x) = true
    · rw [if_pos hx] at h
      simp only [Option.some.injEq, Prod.mk.injEq] at h
      rw [← h.1]
      exact hx
    · rw [if_neg hx] at h
      exact ih l rest h

theorem joinSpace_cons (x : List Char) (xs : List (List Char)) :
    ∃ t, joinSpace (x :: xs) = x ++ t := by
  cases xs with
  | nil => exact ⟨[], by simp [joinSpace]⟩
  | cons y ys => exact ⟨' ' :: joinSpace (y :: ys), rfl⟩

/-- A non-empty fallback result starts with a case-insensitive keyword
block. -/
theorem fallbackExtract_decomp {c2 f : List Char} (h : fallbackExtract c2 = f)
    (hne : f ≠ []) :
    ∃ kw a r2, kw ∈ kwLC ∧ a.map lowC = kw ∧ f = a ++ r2 := by
  unfold fallbackExtract at h
  cases hfb : findFb (splitNl c2) with
  | none => rw [hfb] at h; exact absurd h.symm hne
  | some lr =>
    obtain ⟨l, ls⟩ := lr
    rw [hfb] at h
    simp only at h
    have hany := findFb_some (splitNl c2) l ls hfb
    obtain ⟨kw, hkw, hlead⟩ := List.any_eq_true.mp hany
    obtain ⟨r, hr⟩ : ∃ r, ciDrop kw (pyStrip l) = some r := by
      cases hq : ciDrop kw (pyStrip l) with
      | none => rw [ciLeads, hq] at hlead; exact absurd hlead (by simp)
      | some r => exact ⟨r, rfl⟩
    obtain ⟨a, ha, hmap⟩ := ciDrop_decomp kw (pyStrip l) r hr
    obtain ⟨hane, hans, -, -, -⟩ := kw_block_props hmap hkw
    obtain ⟨t, ht⟩ := joinSpace_cons (pyStrip l)
      ((ls.takeWhile (fun x => !(pyStrip x).isEmpty)).map pyStrip)
    rw [ht, ha, List.append_assoc] at h
    obtain ⟨r2, hr2⟩ := pyStrip_decomp a (r ++ t) hane hans
    rw [hr2] at h
    exact ⟨kw, a, r2, hkw, hmap, h.symm⟩

/-! ### Helper lemmas about the final normalization -/

theorem leadsWith_iff : ∀ (pat l : List Char), leadsWith pat l = true ↔ ∃ u, l = pat ++ u := by
  intro pat
  induction pat with
  | nil => intro l; simp [leadsWith]
  | cons p ps ih =>
    intro l
    cases l with
    | nil => simp [leadsWith]
    | cons c cs =>
      simp only [leadsWith, Bool.and_eq_true, beq_iff_eq, ih cs]
      constructor
      · rintro ⟨rfl, u, rfl⟩
        exact ⟨u, rfl⟩
      · rintro ⟨u, hu⟩
        injection hu with h1 h2
        exact ⟨h1.symm, u, h2⟩

theorem trailsWith_iff (pat s : List Char) : trailsWith pat s = true ↔ ∃ t, s = t ++ pat := by
  show leadsWith pat.reverse s.reverse = true ↔ _
  rw [leadsWith_iff]
  constructor
  · rintro ⟨u, hu⟩
    refine ⟨u.reverse, ?_⟩
    rw [← List.reverse_reverse s, hu]
    simp
  · rintro ⟨t, rfl⟩
    exact ⟨t.reverse, by simp⟩

theorem dropLast3_concat3 (g : List Char) (x y z : Char) :
    dropLast3 (g ++ [x, y, z]) = g := by
  unfold dropLast3
  have : (g ++ [x, y, z]).length - 3 = g.length := by simp
  rw [this, List.take_left]

/-- A keyword block free of backticks fits inside the part of the
candidate that precedes a trailing triple backtick. -/
theorem block_before_tick : ∀ (a g r : List Char), a ++ r = g ++ ['`','`','`'] →
    (∀ c ∈ a, c ≠ '`') → ∃ w, g = a ++ w := by
  intro a
  induction a with
  | nil => intro g r h hn; exact ⟨g, rfl⟩
  | cons c a' ih =>
    intro g r h hn
    cases g with
    | nil =>
      simp only [List.cons_append, List.nil_append] at h
      injection h with h1 h2
      exact absurd h1 (hn c (by simp))
    | cons d g' =>
      simp only [List.cons_append] at h
      injection h with h1 h2
      obtain ⟨w, hw⟩ := ih g' r h2 (fun x hx => hn x (by simp [hx]))
      exact ⟨w, by rw [h1, hw]; rfl⟩

/-- The final normalization keeps the keyword block of a candidate and
produces a semicolon-terminated result. -/
theorem finalNormalize_props {f a kw r : List Char} (hkw : kw ∈ kwLC)
    (hmap : a.map lowC = kw) (hf : f = a ++ r) :
    ∃ r2, finalNormalize f = a ++ r2 ∧ trailsWith [';'] (finalNormalize f) = true := by
  obtain ⟨hane, hans, hant, -, -⟩ := kw_block_props hmap hkw
  unfold finalNormalize
  by_cases hcond : (!f.isEmpty && trailsWith ['`','`','`'] f) = true
  · rw [if_pos hcond]
    have htick : trailsWith ['`','`','`'] f = true := by
      simp only [Bool.and_eq_true] at hcond
      exact hcond.2
    obtain ⟨g, hgf⟩ := (trailsWith_iff _ f).mp htick
    rw [hgf, dropLast3_concat3]
    obtain ⟨w, hw⟩ := block_before_tick a g r (by rw [← hf, hgf]) hant
    rw [hw]
    obtain ⟨w2, hw2⟩ := pyStrip_decomp a w hane hans
    rw [hw2]
    dsimp only
    by_cases hsemi : trailsWith [';'] (a ++ w2) = true
    · rw [hsemi]
      simp only [Bool.not_true, Bool.and_false, Bool.false_and, Bool.and_self]
      exact ⟨w2, by simp, hsemi⟩
    · have hsemi' : trailsWith [';'] (a ++ w2) = false := by simpa using hsemi
      rw [hsemi']
      have hie : (a ++ w2).isEmpty = false := by
        cases a with
        | nil => exact absurd rfl hane
        | cons x xs => simp
      have hany : anyKwLeads (a ++ w2) = true :=
        anyKw_of_ciLeads hkw (ciLeads_append kw a w2 hmap)
      rw [hie, hany]
      simp only [Bool.not_false, Bool.true_and, Bool.and_true, if_pos]
      exact ⟨w2 ++ [';'], by simp, trailsWith_concat ';' _⟩
  · rw [if_neg hcond]
    dsimp only
    by_cases hsemi : trailsWith [';'] f = true
    · rw [hsemi]
      simp only [Bool.not_true, Bool.and_false, Bool.false_and, Bool.and_self]
      exact ⟨r, by simp [hf], hsemi⟩
    · have hsemi' : trailsWith [';'] f = false := by simpa using hsemi
      rw [hsemi']
      have hie : f.isEmpty = false := by
        rw [hf]
        cases a with
        | nil => exact absurd rfl hane
        | cons x xs => simp
      have hany : anyKwLeads f = true := by
        rw [hf]
        exact anyKw_of_ciLeads hkw (ciLeads_append kw a r hmap)
      rw [hie, hany]
      simp only [Bool.not_false, Bool.true_and, Bool.and_true, if_pos]
      exact ⟨r ++ [';'], by simp [hf], by rw [hf]; exact trailsWith_concat ';' _⟩

/-- Branch form of the extractor. -/
theorem extractSql_eq (content : List Char) :
    extractSql content = finalNormalize (
      match findPrimary true (cleanedOutput content) with
      | some m => ensureSemi (pyStrip m)
      | none => fallbackExtract (cleanedOutput content)) := rfl

theorem ensureSemi_append (a x : List Char) : ∃ y, ensureSemi (a ++ x) = a ++ y := by
  by_cases h : trailsWith [';'] (a ++ x) = true
  · exact ⟨x, ensureSemi_of_semi h⟩
  · rw [ensureSemi_of_no_semi (by simpa using h)]
    exact ⟨x ++ [';'], by simp⟩

theorem takeWhile_dropWhile_nil {α : Type} (p : α → Bool) :
    ∀ l : List α, (l.dropWhile p).takeWhile p = [] := by
  intro l
  induction l with
  | nil => rfl
  | cons c cs ih =>
    by_cases h : p c = true
    · rw [List.dropWhile_cons, if_pos h]
      exact ih
    · rw [List.dropWhile_cons, if_neg (by simp [h]), List.takeWhile_cons, if_neg (by simp [h])]

/-- Characterization of the lazy regex tail `.*?(;|$)` by `takeWhile`:
it is the longest semicolon- and newline-free run, closed by the consumed
semicolon when the run was stopped by one. -/
theorem lazyTail_eq (l : List Char) :
    lazyTail l = l.takeWhile (fun c => !(c == ';') && !(c == '\n')) ++
      (if leadsWith [';'] (l.dropWhile (fun c => !(c == ';') && !(c == '\n'))) then [';']
       else []) := by
  induction l with
  | nil => rfl
  | cons c cs ih =>
    by_cases h1 : c == ';'
    · have hc : c = ';' := by simpa using h1
      subst hc
      simp [lazyTail, List.takeWhile_cons, List.dropWhile_cons, leadsWith]
    · by_cases h2 : c == '\n'
      · have hc : c = '\n' := by simpa using h2
        subst hc
        simp [lazyTail, List.takeWhile_cons, List.dropWhile_cons, leadsWith]
      · have hL : lazyTail (c :: cs) = c :: lazyTail cs := by
          simp only [lazyTail]
          rw [if_neg h1, if_neg h2]
        rw [hL, ih, List.takeWhile_cons, List.dropWhile_cons]
        have hp : (!(c == ';') && !(c == '\n')) = true := by simp [h1, h2]
        rw [if_pos hp, if_pos hp, List.cons_append]

/-! ### Claims C1–C3 -/

/-- Capture described by the claim for the primary layer, modelled from
the spec's words: from the first line-anchored keyword, capture greedily
through either the first statement terminator or the end of the text. -/
def greedyToSemi : List Char → List Char
  | [] => []
  | c :: cs => if c == ';' then [';'] else c :: greedyToSemi cs

/-- Spec-described anchored capture at one position. -/
def claimedPrimaryAt (s : List Char) : Option (List Char) :=
  match tryKw kwLC s with
  | none => none
  | some (k, rest) => some (k ++ greedyToSemi rest)

/-- Spec-described primary search: first line beginning with a keyword,
capture through the first terminator or end of text. -/
def claimedPrimary : Bool → List Char → Option (List Char)
  | _, [] => none
  | atLS, c :: cs =>
    match (if atLS then claimedPrimaryAt (c :: cs) else none) with
    | some m => some m
    | none => claimedPrimary (c == '\n') cs

/-- C1, counterexample.  The claim says the primary layer captures
greedily from the keyword through the first `;` or the end of the text,
spanning multiple lines.  On `"SELECT * FROM t\nWHERE x = 1;"` that
description captures the whole two-line statement, but the code's match
(lazy `.*?` with a MULTILINE `$`) stops at the end of the first line and
never reaches the semicolon on the second line. -/
theorem claim_C1_counterexample :
    claimedPrimary true ("SELECT * FROM t\nWHERE x = 1;".data) =
      some ("SELECT * FROM t\nWHERE x = 1;".data) ∧
    findPrimary true ("SELECT * FROM t\nWHERE x = 1;".data) =
      some ("SELECT * FROM t".data) ∧
    findPrimary true ("SELECT * FROM t\nWHERE x = 1;".data) ≠
      claimedPrimary true ("SELECT * FROM t\nWHERE x = 1;".data) ∧
    extractSql ("SELECT * FROM t\nWHERE x = 1;".data) = ("SELECT * FROM t;".data) := by
  exact ⟨by decide, by decide, by decide, by decide⟩

theorem trailsWith_nl_cons {c : Char} {l : List Char}
    (h : trailsWith ['\n'] (c :: l) = true) :
    (l = [] ∧ c = '\n') ∨ trailsWith ['\n'] l = true := by
  obtain ⟨t, ht⟩ := trailsWith_single.mp h
  cases t with
  | nil =>
    simp only [List.nil_append] at ht
    injection ht with h1 h2
    exact Or.inl ⟨h2, h1⟩
  | cons d t' =>
    simp only [List.cons_append] at ht
    injection ht with h1 h2
    subst h2
    exact Or.inr (trailsWith_concat '\n' t')

/-- A successful primary search matches at the FIRST line-start position
admitting an anchored match: every strictly earlier line start fails. -/
theorem findPrimary_min : ∀ (atLS : Bool) (s m : List Char),
    findPrimary atLS s = some m →
    ∃ pre t, s = pre ++ t ∧ tryPrimaryAt t = some m ∧
      ((atLS = true ∧ pre = []) ∨ trailsWith ['\n'] pre = true) ∧
      (∀ pre' t', s = pre' ++ t' → pre'.length < pre.length →
        ((atLS = true ∧ pre' = []) ∨ trailsWith ['\n'] pre' = true) →
        tryPrimaryAt t' = none) := by
  intro atLS s
  induction s generalizing atLS with
  | nil => intro m h; simp [findPrimary] at h
  | cons c cs ih =>
    intro m h
    simp only [findPrimary] at h
    split at h
    · rename_i m' heq
      have hm : m' = m := by injection h
      subst hm
      by_cases hA : atLS = true
      · rw [if_pos hA] at heq
        refine ⟨[], c :: cs, by simp, heq, Or.inl ⟨hA, rfl⟩, ?_⟩
        intro pre' t' _ hlen _
        simp at hlen
      · rw [if_neg hA] at heq
        exact absurd heq (by simp)
    · rename_i heq
      obtain ⟨pre1, t, hsplit, htry, hcond, hmin⟩ := ih (c == '\n') m h
      refine ⟨c :: pre1, t, by simp [hsplit], htry, Or.inr ?_, ?_⟩
      · rcases hcond with ⟨hc, rfl⟩ | hc
        · have : c = '\n' := by simpa using hc
          subst this
          exact trailsWith_concat '\n' []
        · obtain ⟨t', rfl⟩ := trailsWith_single.mp hc
          exact trailsWith_concat '\n' (c :: t')
      · intro pre' t' hsplit' hlen hcond'
        cases pre' with
        | nil =>
          have ht' : c :: cs = t' := by simpa using hsplit'
          subst ht'
          rcases hcond' with ⟨hA, -⟩ | hfalse
          · rw [if_pos hA] at heq
            exact heq
          · exact absurd hfalse (by decide)
        | cons c' pre'' =>
          simp only [List.cons_append] at hsplit'
          injection hsplit' with h1 h2
          have hlen' : pre''.length < pre1.length := by
            simp only [List.length_cons] at hlen
            omega
          rcases hcond' with ⟨-, habs⟩ | hnlc
          · exact absurd habs (by simp)
          · rcases trailsWith_nl_cons hnlc with ⟨hpe, hcn⟩ | htl
            · subst hpe
              refine hmin [] t' (by simpa using h2) (by simpa using hlen') (Or.inl ⟨?_, rfl⟩)
              rw [h1, hcn]
              simp
            · exact hmin pre'' t' h2 hlen' (Or.inr htl)

/-- Whenever some line start of the text admits an anchored match, the
primary search succeeds. -/
theorem findPrimary_exists : ∀ (pre : List Char) (atLS : Bool) (t m0 : List Char),
    ((atLS = true ∧ pre = []) ∨ trailsWith ['\n'] pre = true) →
    tryPrimaryAt t = some m0 → ∃ m, findPrimary atLS (pre ++ t) = some m := by
  intro pre
  induction pre with
  | nil =>
    intro atLS t m0 hcond htry
    have hA : atLS = true := by
      rcases hcond with ⟨hA, -⟩ | hf
      · exact hA
      · exact absurd hf (by decide)
    subst hA
    cases t with
    | nil =>
      rw [show tryPrimaryAt ([] : List Char) = none from rfl] at htry
      exact absurd htry (by simp)
    | cons c cs =>
      refine ⟨m0, ?_⟩
      simp only [List.nil_append, findPrimary]
      rw [if_pos trivial, htry]
  | cons c pre' ih =>
    intro atLS t m0 hcond htry
    have hcond' : ((c == '\n') = true ∧ pre' = []) ∨ trailsWith ['\n'] pre' = true := by
      rcases hcond with ⟨-, habs⟩ | hnl
      · exact absurd habs (by simp)
      · rcases trailsWith_nl_cons hnl with ⟨hpe, hcn⟩ | htl
        · exact Or.inl ⟨by simp [hcn], hpe⟩
        · exact Or.inr htl
    obtain ⟨m, hm⟩ := ih (c == '\n') t m0 hcond' htry
    have hunfold : findPrimary atLS ((c :: pre') ++ t) =
        match (if atLS then tryPrimaryAt (c :: (pre' ++ t)) else none) with
        | some m => some m
        | none => findPrimary (c == '\n') (pre' ++ t) := rfl
    cases hT : (if atLS then tryPrimaryAt (c :: (pre' ++ t)) else none) with
    | some m1 =>
      refine ⟨m1, ?_⟩
      rw [hunfold, hT]
    | none =>
      refine ⟨m, ?_⟩
      rw [hunfold, hT]
      exact hm

/-- C1, amended.  The primary layer matches at the FIRST line start whose
line begins with a case-insensitive keyword followed by whitespace (every
strictly earlier line start fails the anchored pattern, and whenever some
line start admits a match the search succeeds), and the capture
decomposes into the matched keyword, the greedy non-empty whitespace run
after it (the only place the capture may cross line boundaries), and a
lazily captured tail free of semicolons and newlines, closed by the first
semicolon when one stopped it — so the capture ends at the first `;` or
the first line end, not at the end of the text. -/
theorem claim_C1_primary_capture :
    (∀ s m, findPrimary true s = some m →
      ∃ pre kw a ws rest, kw ∈ kwLC ∧ a.map lowC = kw ∧
        s = pre ++ (a ++ (ws ++ rest)) ∧ (pre = [] ∨ trailsWith ['\n'] pre = true) ∧
        ws ≠ [] ∧ (∀ c ∈ ws, isSpace c = true) ∧ rest.takeWhile isSpace = [] ∧
        m = a ++ ws ++ (rest.takeWhile (fun c => !(c == ';') && !(c == '\n')) ++
          (if leadsWith [';'] (rest.dropWhile (fun c => !(c == ';') && !(c == '\n')))
           then [';'] else [])) ∧
        (∀ pre' t', s = pre' ++ t' → pre'.length < pre.length →
          (pre' = [] ∨ trailsWith ['\n'] pre' = true) → tryPrimaryAt t' = none)) ∧
    (∀ pre t m0, (pre = [] ∨ trailsWith ['\n'] pre = true) →
      tryPrimaryAt t = some m0 → ∃ m, findPrimary true (pre ++ t) = some m) := by
  constructor
  · intro s m h
    obtain ⟨pre, t, hsplit, htry, hpre, hmin⟩ := findPrimary_min true s m h
    obtain ⟨kw, a, rest0, hkw, ht, hmap, hws, hm⟩ := tryPrimaryAt_decomp htry
    refine ⟨pre, kw, a, rest0.takeWhile isSpace, rest0.dropWhile isSpace, hkw, hmap,
      ?_, ?_, ?_, ?_, ?_, ?_, ?_⟩
    · rw [hsplit, ht, List.takeWhile_append_dropWhile]
    · rcases hpre with ⟨-, hp⟩ | hp
      · exact Or.inl hp
      · exact Or.inr hp
    · intro hnil
      rw [hnil] at hws
      simp at hws
    · intro c hc
      exact List.mem_takeWhile_imp hc
    · exact takeWhile_dropWhile_nil isSpace rest0
    · rw [hm, lazyTail_eq]
    · intro pre' t' hsplit' hlen hcond
      refine hmin pre' t' hsplit' hlen ?_
      rcases hcond with hp | hp
      · exact Or.inl ⟨rfl, hp⟩
      · exact Or.inr hp
  · intro pre t m0 hcond htry
    refine findPrimary_exists pre true t m0 ?_ htry
    rcases hcond with hp | hp
    · exact Or.inl ⟨rfl, hp⟩
    · exact Or.inr hp

/-- C1, witness: the capture-shape-with-firstness direction at a match on
the second line, and the existence direction at the same line start. -/
theorem claim_C1_primary_capture_witness :
    (∃ pre kw a ws rest, kw ∈ kwLC ∧ a.map lowC = kw ∧
      ("x\nSELECT 1;".data) = pre ++ (a ++ (ws ++ rest)) ∧
      (pre = [] ∨ trailsWith ['\n'] pre = true) ∧
      ws ≠ [] ∧ (∀ c ∈ ws, isSpace c = true) ∧ rest.takeWhile isSpace = [] ∧
      ("SELECT 1;".data) = a ++ ws ++
        (rest.takeWhile (fun c => !(c == ';') && !(c == '\n')) ++
        (if leadsWith [';'] (rest.dropWhile (fun c => !(c == ';') && !(c == '\n')))
         then [';'] else [])) ∧
      (∀ pre' t', ("x\nSELECT 1;".data) = pre' ++ t' → pre'.length < pre.length →
        (pre' = [] ∨ trailsWith ['\n'] pre' = true) → tryPrimaryAt t' = none)) ∧
    (∃ m, findPrimary true (("x\n".data) ++ ("SELECT 1;".data)) = some m) :=
  ⟨claim_C1_primary_capture.1 ("x\nSELECT 1;".data) ("SELECT 1;".data) (by decide),
   claim_C1_primary_capture.2 ("x\n".data) ("SELECT 1;".data) ("SELECT 1;".data) (by decide)
     (by decide)⟩

/-- C2, counterexample.  On the raw completion `"select*1;;"` the primary
regex fails (no whitespace follows the keyword), the fallback layer
returns the line verbatim, and the non-empty result ends with two
statement terminators, not exactly one. -/
theorem claim_C2_counterexample :
    extractSql ("select*1;;".data) = ("select*1;;".data) ∧
    extractSql ("select*1;;".data) ≠ [] ∧
    trailsWith [';',';'] (extractSql ("select*1;;".data)) = true := by
  exact ⟨by decide, by decide, by decide⟩

/-- C2, amended.  Every non-empty extractor result begins (with no
leading whitespace, hence also after trimming) with one of the recognized
SQL keywords, case-insensitively, and ends with a trailing statement
terminator — though not necessarily exactly one. -/
theorem claim_C2_invariant (content : List Char) (h : extractSql content ≠ []) :
    (∃ kw ∈ kwLC, ciLeads kw (extractSql content) = true) ∧
    trailsWith [';'] (extractSql content) = true := by
  rw [extractSql_eq] at h ⊢
  cases hp : findPrimary true (cleanedOutput content) with
  | some m =>
    simp only [hp] at h ⊢
    obtain ⟨kw, a, rest0, hkw, ht, hmap, hws, hm⟩ :=
      tryPrimaryAt_decomp (findPrimary_decomp true _ m hp).choose_spec.choose_spec.2.1
    obtain ⟨hane, hans, -, -, -⟩ := kw_block_props hmap hkw
    rw [hm, List.append_assoc]
    obtain ⟨r2, hr2⟩ := pyStrip_decomp a _ hane hans
    rw [hr2]
    obtain ⟨y, hy⟩ := ensureSemi_append a r2
    rw [hy]
    rw [finalNormalize_of_semi (by rw [← hy]; exact ensureSemi_trails _)]
    refine ⟨⟨kw, hkw, ciLeads_append kw a y hmap⟩, ?_⟩
    rw [← hy]
    exact ensureSemi_trails _
  | none =>
    simp only [hp] at h ⊢
    by_cases hfb : fallbackExtract (cleanedOutput content) = []
    · rw [hfb, finalNormalize_nil] at h
      exact absurd rfl h
    · obtain ⟨kw, a, r2, hkw, hmap, hf⟩ := fallbackExtract_decomp rfl hfb
      obtain ⟨r3, hfn, hsemi⟩ := finalNormalize_props hkw hmap hf
      rw [hfn]
      exact ⟨⟨kw, hkw, ciLeads_append kw a r3 hmap⟩, by rw [← hfn]; exact hsemi⟩

/-- C2, witness for the amended invariant. -/
theorem claim_C2_invariant_witness :
    (∃ kw ∈ kwLC, ciLeads kw (extractSql ("SELECT 1".data)) = true) ∧
    trailsWith [';'] (extractSql ("SELECT 1".data)) = true :=
  claim_C2_invariant ("SELECT 1".data) (by decide)

/-- C3, confirmed.  When no line of the cleaned completion, after
stripping and lower-casing, starts with a recognized SQL keyword — in
particular for purely explanatory prose — both the primary regex layer
and the line-by-line fallback layer fail and the extractor returns the
empty string. -/
theorem claim_C3_prose_empty (content : List Char)
    (h : ∀ l ∈ splitNl (cleanedOutput content), anyKwLeads (pyStrip l) = false) :
    extractSql content = [] := by
  rw [extractSql_eq]
  have hfb : fallbackExtract (cleanedOutput content) = [] := by
    unfold fallbackExtract
    rw [findFb_none _ h]
  simp only [findPrimary_none _ h, hfb, finalNormalize_nil]

/-- C3, witness on a purely explanatory completion. -/
theorem claim_C3_prose_empty_witness :
    extractSql ("I cannot help with that.\nPlease rephrase your question.".data) = [] :=
  claim_C3_prose_empty ("I cannot help with that.\nPlease rephrase your question.".data)
    (by decide)

/-! ### Claim C4 -/

/-- C4, confirmed.  Both semicolon-completion sites of the extractor
append exactly one terminator to a candidate that lacks one (the primary
branch unconditionally, the final normalization only when the candidate is
non-empty, not fence-terminated, and starts with a recognized keyword),
and both leave a candidate that already ends with `;` unchanged, so the
appending never doubles the terminator. -/
theorem claim_C4_terminator (c : List Char) :
    (trailsWith [';'] c = true → ensureSemi c = c) ∧
    (trailsWith [';'] c = false → ensureSemi c = c ++ [';']) ∧
    (c ≠ [] → trailsWith [';'] c = false → trailsWith ['`','`','`'] c = false →
      anyKwLeads c = true → finalNormalize c = c ++ [';']) ∧
    (trailsWith [';'] c = true → finalNormalize c = c) := by
  refine ⟨fun h => ensureSemi_of_semi h, fun h => ensureSemi_of_no_semi h, ?_,
    fun h => finalNormalize_of_semi h⟩
  intro hne hsemi htick hany
  have hie : c.isEmpty = false := by
    cases c with
    | nil => exact absurd rfl hne
    | cons x xs => simp
  unfold finalNormalize
  rw [htick]
  simp only [Bool.and_false, Bool.false_eq_true, if_false]
  rw [hie, hsemi, hany]
  simp

/-- C4, witness at concrete candidates with and without a terminator. -/
theorem claim_C4_terminator_witness :
    ensureSemi ("SELECT 1".data) = ("SELECT 1".data) ++ [';'] ∧
    finalNormalize ("SELECT 1".data) = ("SELECT 1".data) ++ [';'] ∧
    ensureSemi ("SELECT 1;".data) = ("SELECT 1;".data) ∧
    finalNormalize ("SELECT 1;".data) = ("SELECT 1;".data) :=
  ⟨(claim_C4_terminator ("SELECT 1".data)).2.1 (by decide),
   (claim_C4_terminator ("SELECT 1".data)).2.2.1 (by decide) (by decide) (by decide) (by decide),
   (claim_C4_terminator ("SELECT 1;".data)).1 (by decide),
   (claim_C4_terminator ("SELECT 1;".data)).2.2.2 (by decide)⟩

/-! ### Claim C6 -/

theorem map_lowC_cons {p : List Char} {q0 : Char} {qs : List Char}
    (h : p.map lowC = q0 :: qs) :
    ∃ c0 p', p = c0 :: p' ∧ lowC c0 = q0 ∧ p'.map lowC = qs := by
  cases p with
  | nil => simp at h
  | cons c0 p' =>
    simp only [List.map_cons, List.cons.injEq] at h
    exact ⟨c0, p', rfl, h.1, h.2⟩

theorem map_lowC_length {p pat : List Char} (hmap : p.map lowC = pat) :
    p.length = pat.length := by
  have := congrArg List.length hmap
  simpa using this

theorem thinkTag_none {c : Char} (hc : c ≠ '<') (cs : List Char) :
    thinkTag (c :: cs) = none := by
  simp only [thinkTag]
  rw [if_neg hc]

theorem subThinkF_no_tag : ∀ (n : Nat) (s : List Char), '<' ∉ s → subThinkF n s = s := by
  intro n
  induction n with
  | zero => intro s h; rfl
  | succ n ih =>
    intro s h
    cases s with
    | nil => rfl
    | cons c cs =>
      have hc : c ≠ '<' := fun hx => h (by simp [hx])
      simp only [subThinkF, thinkTag_none hc cs]
      rw [ih cs (fun hx => h (by simp [hx]))]

theorem ciDrop_append_pat : ∀ (p q s : List Char),
    ciDrop (p ++ q) s = (ciDrop p s).bind (ciDrop q) := by
  intro p
  induction p with
  | nil => intro q s; simp [ciDrop]
  | cons x p' ih =>
    intro q s
    cases s with
    | nil => simp [ciDrop]
    | cons c cs =>
      simp only [List.cons_append, ciDrop]
      by_cases h : (lowC c == x) = true
      · rw [if_pos h, if_pos h]
        exact ih q cs
      · rw [if_neg h, if_neg h]
        rfl

/-- A case-insensitive spelling of the opening reasoning tag matches at
the head. -/
theorem thinkTag_open {w rest : List Char} (hw : w.map lowC = ['t','h','i','n','k']) :
    thinkTag ('<' :: (w ++ '>' :: rest)) = some rest := by
  obtain ⟨c0, w', hw0, hc0, -⟩ := map_lowC_cons hw
  subst hw0
  have hne : c0 ≠ '/' := by
    intro h
    rw [h] at hc0
    exact absurd hc0 (by decide)
  simp only [thinkTag, if_pos rfl, List.cons_append]
  rw [if_neg hne]
  have hsplit : thinkWord = ['t','h','i','n','k'] ++ ['>'] := rfl
  rw [hsplit, ciDrop_append_pat]
  have hdrop : ciDrop ['t','h','i','n','k'] ((c0 :: w') ++ ('>' :: rest)) = some ('>' :: rest) :=
    ciDrop_of_map _ (c0 :: w') ('>' :: rest) hw
  rw [show c0 :: (w' ++ '>' :: rest) = (c0 :: w') ++ ('>' :: rest) from rfl, hdrop]
  rfl

/-- A case-insensitive spelling of the closing reasoning tag matches at
the head. -/
theorem thinkTag_close {w rest : List Char} (hw : w.map lowC = ['t','h','i','n','k']) :
    thinkTag ('<' :: '/' :: (w ++ '>' :: rest)) = some rest := by
  simp only [thinkTag, if_pos rfl]
  have hsplit : thinkWord = ['t','h','i','n','k'] ++ ['>'] := rfl
  rw [hsplit, ciDrop_append_pat]
  have hdrop : ciDrop ['t','h','i','n','k'] (w ++ ('>' :: rest)) = some ('>' :: rest) :=
    ciDrop_of_map _ w ('>' :: rest) hw
  rw [hdrop]
  rfl

theorem subThinkF_tag_step {s r : List Char} {m : Nat} (h : thinkTag s = some r) :
    subThinkF (m + 1) s = subThinkF m r := by
  cases s with
  | nil => simp [thinkTag] at h
  | cons c cs => simp only [subThinkF, h]

/-- Scanning over a tag-free block only copies it. -/
theorem subThinkF_clean_walk : ∀ (a s : List Char) (m : Nat), '<' ∉ a →
    subThinkF (a.length + m) (a ++ s) = a ++ subThinkF m s := by
  intro a
  induction a with
  | nil => intro s m h; simp
  | cons x a' ih =>
    intro s m h
    have hx : x ≠ '<' := fun hh => h (by simp [hh])
    have hfuel : (x :: a').length + m = (a'.length + m) + 1 := by simp; omega
    rw [hfuel]
    simp only [List.cons_append, subThinkF, thinkTag_none hx]
    exact congrArg (fun t => x :: t) (ih s m (fun hh => h (by simp [hh])))

/-- C6, confirmed.  The noise-stripping layer deletes only the reasoning
delimiters themselves (in any letter casing): for a completion
`a <think> b </think> c` with no other tag-opening character, the
substitution returns `a b c`, keeping the enclosed text in place — and
that enclosed text is indeed still found by the later keyword-matching
layers, as the concrete run on `"<think>SELECT 1;</think>"` shows. -/
theorem claim_C6_think_tags (a b c w1 w2 : List Char)
    (hw1 : w1.map lowC = ['t','h','i','n','k'])
    (hw2 : w2.map lowC = ['t','h','i','n','k'])
    (ha : '<' ∉ a) (hb : '<' ∉ b) (hc : '<' ∉ c) :
    subThink (a ++ ('<' :: (w1 ++ '>' :: (b ++ '<' :: '/' :: (w2 ++ '>' :: c))))) =
      a ++ (b ++ c) ∧
    extractSql ("<think>SELECT 1;</think>".data) = ("SELECT 1;".data) := by
  refine ⟨?_, by decide⟩
  unfold subThink
  have hlen : (a ++ ('<' :: (w1 ++ '>' :: (b ++ '<' :: '/' :: (w2 ++ '>' :: c))))).length =
      a.length + ('<' :: (w1 ++ '>' :: (b ++ '<' :: '/' :: (w2 ++ '>' :: c)))).length := by
    simp
  rw [hlen, subThinkF_clean_walk a _ _ ha]
  congr 1
  obtain ⟨k, hk⟩ : ∃ k, ('<' :: (w1 ++ '>' :: (b ++ '<' :: '/' :: (w2 ++ '>' :: c)))).length
      = k + 1 := ⟨(w1 ++ '>' :: (b ++ '<' :: '/' :: (w2 ++ '>' :: c))).length, by simp⟩
  rw [hk, subThinkF_tag_step (thinkTag_open hw1)]
  have hk2 : k = b.length + (w1.length + 1 + ('<' :: '/' :: (w2 ++ '>' :: c)).length) := by
    have := congrArg (fun n => n - 1) hk
    simp at this ⊢
    omega
  rw [hk2, subThinkF_clean_walk b _ _ hb]
  congr 1
  obtain ⟨k2, hk3⟩ : ∃ k2, w1.length + 1 + ('<' :: '/' :: (w2 ++ '>' :: c)).length = k2 + 1 :=
    ⟨w1.length + 1 + ('/' :: (w2 ++ '>' :: c)).length, by simp; omega⟩
  rw [hk3, subThinkF_tag_step (thinkTag_close hw2)]
  exact subThinkF_no_tag k2 c hc

/-- C6, witness with mixed-case tags and enclosed prose. -/
theorem claim_C6_think_tags_witness :
    subThink (("reasoning: ".data) ++ ('<' :: (['T','h','i','n','k'] ++ '>' ::
      (("the answer ".data) ++ '<' :: '/' :: (['t','h','i','n','K'] ++ '>' ::
        (" done".data)))))) = ("reasoning: ".data) ++ (("the answer ".data) ++ (" done".data)) ∧
    extractSql ("<think>SELECT 1;</think>".data) = ("SELECT 1;".data) :=
  claim_C6_think_tags ("reasoning: ".data) ("the answer ".data) (" done".data)
    ['T','h','i','n','k'] ['t','h','i','n','K'] (by decide) (by decide) (by decide) (by decide)
    (by decide)

/-! ### Claim C5 -/

theorem mem_of_mem_dropWhile {α : Type} (p : α → Bool) :
    ∀ (l : List α) (x : α), x ∈ l.dropWhile p → x ∈ l := by
  intro l
  induction l with
  | nil => intro x h; simp at h
  | cons c cs ih =>
    intro x h
    rw [List.dropWhile_cons] at h
    by_cases hp : p c = true
    · rw [if_pos hp] at h
      exact List.mem_cons_of_mem c (ih x h)
    · rw [if_neg hp] at h
      exact h

theorem lazyTail_of_clean : ∀ (X : List Char), ';' ∉ X → '\n' ∉ X →
    lazyTail (X ++ [';']) = X ++ [';'] := by
  intro X
  induction X with
  | nil => intro _ _; rfl
  | cons c cs ih =>
    intro h1 h2
    have hc1 : c ≠ ';' := fun h => h1 (by simp [h])
    have hc2 : c ≠ '\n' := fun h => h2 (by simp [h])
    simp only [List.cons_append, lazyTail]
    rw [if_neg (by simpa using hc1), if_neg (by simpa using hc2)]
    exact congrArg (fun t => c :: t)
      (ih (fun hm => h1 (by simp [hm])) (fun hm => h2 (by simp [hm])))

theorem subFenceF_false_id : ∀ (n : Nat) (s : List Char), '\n' ∉ s →
    subFenceF n false s = s := by
  intro n
  induction n with
  | zero => intro s h; rfl
  | succ n ih =>
    intro s h
    cases s with
    | nil => rfl
    | cons c cs =>
      show c :: subFenceF n (c == '\n') cs = c :: cs
      have hc : (c == '\n') = false := by
        simp only [beq_eq_false_iff_ne, ne_eq]
        exact fun hh => h (by simp [hh])
      rw [hc]
      exact congrArg (fun t => c :: t) (ih cs (fun hh => h (by simp [hh])))

theorem subFenceF_true_step {c : Char} {cs : List Char} {n : Nat}
    (h0 : fenceTag (c :: cs) = none) :
    subFenceF (n + 1) true (c :: cs) = c :: subFenceF n (c == '\n') cs := by
  simp only [subFenceF, eq_self_iff_true, if_true, h0]

theorem subFence_id {s : List Char} (h0 : fenceTag s = none) (hnl : '\n' ∉ s) :
    subFence s = s := by
  unfold subFence
  cases s with
  | nil => rfl
  | cons c cs =>
    show subFenceF (cs.length + 1) true (c :: cs) = c :: cs
    rw [subFenceF_true_step h0]
    have hc : (c == '\n') = false := by
      simp only [beq_eq_false_iff_ne, ne_eq]
      exact fun hh => hnl (by simp [hh])
    rw [hc]
    exact congrArg (fun t => c :: t)
      (subFenceF_false_id cs.length cs (fun hh => hnl (by simp [hh])))

theorem pyStrip_id {c d : Char} {mid : List Char} (hc : isSpace c = false)
    (hd : isSpace d = false) :
    pyStrip (c :: (mid ++ [d])) = c :: (mid ++ [d]) := by
  unfold pyStrip
  rw [dropWhile_cons_neg hc]
  have hrev : (c :: (mid ++ [d])).reverse = d :: (mid.reverse ++ [c]) := by simp
  rw [hrev, dropWhile_cons_neg hd, ← hrev, List.reverse_reverse]

/-- Suffix list of a character list (the scan positions of `re.sub`). -/
def sufs : List Char → List (List Char)
  | [] => [[]]
  | c :: cs => (c :: cs) :: sufs cs

theorem mem_of_mem_sufs : ∀ (l t : List Char), t ∈ sufs l → ∀ c ∈ t, c ∈ l := by
  intro l
  induction l with
  | nil =>
    intro t ht c hc
    simp only [sufs, List.mem_singleton] at ht
    subst ht
    simp at hc
  | cons x xs ih =>
    intro t ht c hc
    rcases List.mem_cons.mp ht with rfl | ht'
    · exact hc
    · exact List.mem_cons_of_mem x (ih t ht' c hc)

theorem mem_sufs_append : ∀ (x y t : List Char), t ∈ sufs (x ++ y) →
    (∃ x', x' ∈ sufs x ∧ x' ≠ [] ∧ t = x' ++ y) ∨ t ∈ sufs y := by
  intro x
  induction x with
  | nil => intro y t ht; exact Or.inr (by simpa using ht)
  | cons c x' ih =>
    intro y t ht
    rcases List.mem_cons.mp ht with rfl | ht'
    · exact Or.inl ⟨c :: x', List.mem_cons_self _ _, by simp, rfl⟩
    · rcases ih y t ht' with ⟨x'', hx1, hx2, hx3⟩ | h
      · exact Or.inl ⟨x'', List.mem_cons_of_mem _ hx1, hx2, hx3⟩
      · exact Or.inr h

/-- When no scan position of the text starts a reasoning tag, the
substitution is the identity. -/
theorem subThinkF_id_of_no_tag : ∀ (n : Nat) (s : List Char),
    (∀ t ∈ sufs s, thinkTag t = none) → subThinkF n s = s := by
  intro n
  induction n with
  | zero => intro s h; rfl
  | succ n ih =>
    intro s h
    cases s with
    | nil => rfl
    | cons c cs =>
      have hhead : thinkTag (c :: cs) = none := h (c :: cs) (List.mem_cons_self _ _)
      simp only [subThinkF, hhead]
      exact congrArg (fun t => c :: t) (ih cs (fun t ht => h t (List.mem_cons_of_mem _ ht)))

theorem ciDrop_head_mismatch {c0 q0 s0 : Char} {p' X ss : List Char}
    (hc0 : lowC c0 = q0) (hne : q0 ≠ s0) :
    ciDrop (s0 :: ss) ((c0 :: p') ++ X) = none := by
  show ciDrop (s0 :: ss) (c0 :: (p' ++ X)) = none
  simp only [ciDrop]
  rw [if_neg (by simp [hc0, hne])]

theorem ciDrop_second_mismatch {c0 c1 q0 q1 s1 : Char} {p'' X ss : List Char}
    (hc0 : lowC c0 = q0) (hc1 : lowC c1 = q1) (hne : q1 ≠ s1) :
    ciDrop (q0 :: s1 :: ss) ((c0 :: c1 :: p'') ++ X) = none := by
  show ciDrop (q0 :: s1 :: ss) (c0 :: c1 :: (p'' ++ X)) = none
  simp only [ciDrop]
  rw [if_pos (by simp [hc0]), if_neg (by simp [hc1, hne])]

theorem tryKw_cons_hit {k : List Char} (ks : List (List Char)) {s r : List Char}
    (h : ciDrop k s = some r) :
    tryKw (k :: ks) s = some (s.take k.length, r) := by
  simp only [tryKw, h]

theorem tryKw_cons_miss {k : List Char} (ks : List (List Char)) {s : List Char}
    (h : ciDrop k s = none) :
    tryKw (k :: ks) s = tryKw ks s := by
  simp only [tryKw, h]

/-- A block of source characters that case-insensitively spells one of the
seven keywords is matched by the keyword alternation, in the source's
alternation order, yielding exactly that block. -/
theorem tryKw_of_map {a kw : List Char} (r : List Char) (hkw : kw ∈ kwLC)
    (hmap : a.map lowC = kw) :
    tryKw kwLC (a ++ r) = some (a, r) := by
  have htake : (a ++ r).take kw.length = a := by
    rw [← map_lowC_length hmap]
    exact List.take_left a r
  unfold kwLC
  simp only [kwLC, List.mem_cons, List.not_mem_nil, or_false] at hkw
  rcases hkw with rfl | rfl | rfl | rfl | rfl | rfl | rfl
  · rw [tryKw_cons_hit _ (ciDrop_of_map _ _ r hmap), htake]
  · obtain ⟨c0, p1, rfl, hc0, -⟩ := map_lowC_cons hmap
    rw [tryKw_cons_miss _ (ciDrop_head_mismatch hc0 (by decide)),
      tryKw_cons_hit _ (ciDrop_of_map _ _ r hmap), htake]
  · obtain ⟨c0, p1, rfl, hc0, -⟩ := map_lowC_cons hmap
    rw [tryKw_cons_miss _ (ciDrop_head_mismatch hc0 (by decide)),
      tryKw_cons_miss _ (ciDrop_head_mismatch hc0 (by decide)),
      tryKw_cons_hit _ (ciDrop_of_map _ _ r hmap), htake]
  · obtain ⟨c0, p1, rfl, hc0, -⟩ := map_lowC_cons hmap
    rw [tryKw_cons_miss _ (ciDrop_head_mismatch hc0 (by decide)),
      tryKw_cons_miss _ (ciDrop_head_mismatch hc0 (by decide)),
      tryKw_cons_miss _ (ciDrop_head_mismatch hc0 (by decide)),
      tryKw_cons_hit _ (ciDrop_of_map _ _ r hmap), htake]
  · obtain ⟨c0, p1, rfl, hc0, -⟩ := map_lowC_cons hmap
    rw [tryKw_cons_miss _ (ciDrop_head_mismatch hc0 (by decide)),
      tryKw_cons_miss _ (ciDrop_head_mismatch hc0 (by decide)),
      tryKw_cons_miss _ (ciDrop_head_mismatch hc0 (by decide)),
      tryKw_cons_miss _ (ciDrop_head_mismatch hc0 (by decide)),
      tryKw_cons_hit _ (ciDrop_of_map _ _ r hmap), htake]
  · obtain ⟨c0, p1, rfl, hc0, -⟩ := map_lowC_cons hmap
    rw [tryKw_cons_miss _ (ciDrop_head_mismatch hc0 (by decide)),
      tryKw_cons_miss _ (ciDrop_head_mismatch hc0 (by decide)),
      tryKw_cons_miss _ (ciDrop_head_mismatch hc0 (by decide)),
      tryKw_cons_miss _ (ciDrop_head_mismatch hc0 (by decide)),
      tryKw_cons_miss _ (ciDrop_head_mismatch hc0 (by decide)),
      tryKw_cons_hit _ (ciDrop_of_map _ _ r hmap), htake]
  · obtain ⟨c0, p1, rfl, hc0, hrest⟩ := map_lowC_cons hmap
    obtain ⟨c1, p2, rfl, hc1, -⟩ := map_lowC_cons hrest
    rw [tryKw_cons_miss _ (ciDrop_head_mismatch hc0 (by decide)),
      tryKw_cons_miss _ (ciDrop_head_mismatch hc0 (by decide)),
      tryKw_cons_miss _ (ciDrop_head_mismatch hc0 (by decide)),
      tryKw_cons_miss _ (ciDrop_second_mismatch hc0 hc1 (by decide)),
      tryKw_cons_miss _ (ciDrop_head_mismatch hc0 (by decide)),
      tryKw_cons_miss _ (ciDrop_head_mismatch hc0 (by decide)),
      tryKw_cons_hit _ (ciDrop_of_map _ _ r hmap), htake]

/-- No keyword block starts a markdown fence or an `SQL:` label. -/
theorem fenceTag_kw {a kw : List Char} (X : List Char) (hkw : kw ∈ kwLC)
    (hmap : a.map lowC = kw) :
    fenceTag (a ++ X) = none := by
  simp only [kwLC, List.mem_cons, List.not_mem_nil, or_false] at hkw
  rcases hkw with rfl | rfl | rfl | rfl | rfl | rfl | rfl
  · obtain ⟨c0, p1, rfl, hc0, hrest⟩ := map_lowC_cons hmap
    obtain ⟨c1, p2, rfl, hc1, -⟩ := map_lowC_cons hrest
    simp only [fenceTag, ciDrop_head_mismatch hc0 (show ('s' : Char) ≠ '`' by decide),
      ciDrop_second_mismatch hc0 hc1 (show ('e' : Char) ≠ 'q' by decide)]
  · obtain ⟨c0, p1, rfl, hc0, -⟩ := map_lowC_cons hmap
    simp only [fenceTag, ciDrop_head_mismatch hc0 (show ('i' : Char) ≠ '`' by decide),
      ciDrop_head_mismatch hc0 (show ('i' : Char) ≠ 's' by decide)]
  · obtain ⟨c0, p1, rfl, hc0, -⟩ := map_lowC_cons hmap
    simp only [fenceTag, ciDrop_head_mismatch hc0 (show ('u' : Char) ≠ '`' by decide),
      ciDrop_head_mismatch hc0 (show ('u' : Char) ≠ 's' by decide)]
  · obtain ⟨c0, p1, rfl, hc0, -⟩ := map_lowC_cons hmap
    simp only [fenceTag, ciDrop_head_mismatch hc0 (show ('d' : Char) ≠ '`' by decide),
      ciDrop_head_mismatch hc0 (show ('d' : Char) ≠ 's' by decide)]
  · obtain ⟨c0, p1, rfl, hc0, -⟩ := map_lowC_cons hmap
    simp only [fenceTag, ciDrop_head_mismatch hc0 (show ('c' : Char) ≠ '`' by decide),
      ciDrop_head_mismatch hc0 (show ('c' : Char) ≠ 's' by decide)]
  · obtain ⟨c0, p1, rfl, hc0, -⟩ := map_lowC_cons hmap
    simp only [fenceTag, ciDrop_head_mismatch hc0 (show ('a' : Char) ≠ '`' by decide),
      ciDrop_head_mismatch hc0 (show ('a' : Char) ≠ 's' by decide)]
  · obtain ⟨c0, p1, rfl, hc0, -⟩ := map_lowC_cons hmap
    simp only [fenceTag, ciDrop_head_mismatch hc0 (show ('d' : Char) ≠ '`' by decide),
      ciDrop_head_mismatch hc0 (show ('d' : Char) ≠ 's' by decide)]

/-- Core of amended claim C5: a clean single-line statement — a keyword
block in any letter casing, a space, a remainder free of newlines,
interior semicolons and reasoning tags, and one final terminator — passes
through the whole extractor unchanged. -/
theorem extractSql_clean_core (k0 : Char) (krest body kw : List Char)
    (hkw : kw ∈ kwLC) (hmap : (k0 :: krest).map lowC = kw)
    (hthk : ∀ t ∈ sufs (body ++ [';']), thinkTag t = none)
    (h2 : '\n' ∉ body) (h3 : ';' ∉ body) :
    extractSql (k0 :: (krest ++ ' ' :: (body ++ [';']))) =
      k0 :: (krest ++ ' ' :: (body ++ [';'])) := by
  obtain ⟨-, hkns, -, hknl, hklt⟩ := kw_block_props hmap hkw
  have hk0s : isSpace k0 = false := hkns k0 (by simp)
  have htk : tryKw kwLC (k0 :: (krest ++ ' ' :: (body ++ [';']))) =
      some (k0 :: krest, ' ' :: (body ++ [';'])) :=
    tryKw_of_map (' ' :: (body ++ [';'])) hkw hmap
  have hfence : fenceTag (k0 :: (krest ++ ' ' :: (body ++ [';']))) = none :=
    fenceTag_kw (' ' :: (body ++ [';'])) hkw hmap
  have hnl : '\n' ∉ k0 :: (krest ++ ' ' :: (body ++ [';'])) := by
    intro hm
    rcases List.mem_cons.mp hm with h | h
    · exact hknl k0 (by simp) h.symm
    · rcases List.mem_append.mp h with h | h
      · exact hknl '\n' (by simp [h]) rfl
      · rcases List.mem_cons.mp h with h | h
        · exact absurd h (by decide)
        · rcases List.mem_append.mp h with h | h
          · exact h2 h
          · rcases List.mem_cons.mp h with h | h
            · exact absurd h (by decide)
            · simp at h
  have hshape : k0 :: (krest ++ ' ' :: (body ++ [';'])) =
      k0 :: ((krest ++ ' ' :: body) ++ [';']) := by simp
  have hps : pyStrip (k0 :: (krest ++ ' ' :: (body ++ [';']))) =
      k0 :: (krest ++ ' ' :: (body ++ [';'])) := by
    rw [hshape]
    exact pyStrip_id hk0s (by decide)
  have hsufs : ∀ t ∈ sufs (k0 :: (krest ++ ' ' :: (body ++ [';']))), thinkTag t = none := by
    intro t ht
    have ht' : t ∈ sufs ((k0 :: krest) ++ (' ' :: (body ++ [';']))) := ht
    rcases mem_sufs_append (k0 :: krest) (' ' :: (body ++ [';'])) t ht' with
      ⟨x', hx1, hx2, rfl⟩ | hy
    · obtain ⟨c, x'', rfl⟩ : ∃ c x'', x' = c :: x'' := by
        cases x' with
        | nil => exact absurd rfl hx2
        | cons c x'' => exact ⟨c, x'', rfl⟩
      have hcne : c ≠ '<' := hklt c (mem_of_mem_sufs _ _ hx1 c (by simp))
      exact thinkTag_none hcne _
    · rcases List.mem_cons.mp hy with rfl | hy'
      · exact thinkTag_none (by decide) _
      · exact hthk t hy'
  have hthink : subThink (k0 :: (krest ++ ' ' :: (body ++ [';']))) =
      k0 :: (krest ++ ' ' :: (body ++ [';'])) :=
    subThinkF_id_of_no_tag _ _ hsufs
  have hfns : subFence (k0 :: (krest ++ ' ' :: (body ++ [';']))) =
      k0 :: (krest ++ ' ' :: (body ++ [';'])) :=
    subFence_id hfence hnl
  have hclean : cleanedOutput (k0 :: (krest ++ ' ' :: (body ++ [';']))) =
      k0 :: (krest ++ ' ' :: (body ++ [';'])) := by
    unfold cleanedOutput
    rw [hps, hthink, hps, hfns, hps]
  have hdw : (body ++ [';']).dropWhile isSpace = body.dropWhile isSpace ++ [';'] ∨
      (body ++ [';']).dropWhile isSpace = [';'] := by
    rw [List.dropWhile_append]
    by_cases hbe : (body.dropWhile isSpace).isEmpty = true
    · rw [if_pos hbe]
      right
      rfl
    · rw [if_neg hbe]
      left
      rfl
  have hlz : lazyTail ((body ++ [';']).dropWhile isSpace) =
      (body ++ [';']).dropWhile isSpace := by
    rcases hdw with h | h
    · rw [h]
      exact lazyTail_of_clean _ (fun hm => h3 (mem_of_mem_dropWhile isSpace body ';' hm))
        (fun hm => h2 (mem_of_mem_dropWhile isSpace body '\n' hm))
    · rw [h]
      rfl
  have htp : tryPrimaryAt (k0 :: (krest ++ ' ' :: (body ++ [';']))) =
      some (k0 :: (krest ++ ' ' :: (body ++ [';']))) := by
    unfold tryPrimaryAt
    rw [htk]
    dsimp only
    rw [List.takeWhile_cons, List.dropWhile_cons,
      if_pos (show isSpace ' ' = true by decide), if_pos (show isSpace ' ' = true by decide),
      if_neg (show ¬(' ' :: (body ++ [';']).takeWhile isSpace).isEmpty = true by simp)]
    rw [hlz]
    have hval : ((k0 :: krest) ++ (' ' :: (body ++ [';']).takeWhile isSpace)) ++
        (body ++ [';']).dropWhile isSpace = k0 :: (krest ++ ' ' :: (body ++ [';'])) := by
      simp only [List.cons_append, List.append_assoc]
      rw [List.takeWhile_append_dropWhile]
    exact congrArg some hval
  have hfp : findPrimary true (k0 :: (krest ++ ' ' :: (body ++ [';']))) =
      some (k0 :: (krest ++ ' ' :: (body ++ [';']))) := by
    simp only [findPrimary]
    rw [if_pos trivial, htp]
  have hsemi : trailsWith [';'] (k0 :: (krest ++ ' ' :: (body ++ [';']))) = true := by
    rw [hshape]
    exact trailsWith_concat ';' (k0 :: (krest ++ ' ' :: body))
  rw [extractSql_eq, hclean]
  simp only [hfp]
  rw [hps, ensureSemi_of_semi hsemi, finalNormalize_of_semi hsemi]

/-- C5, counterexample.  A clean multi-line statement is NOT returned
unchanged: the lazy tail of the primary regex stops at the line end before
the newline, so `"SELECT *\nFROM products;"` comes back as
`"SELECT *;"` — the extractor is not idempotent on all clean input. -/
theorem claim_C5_counterexample :
    extractSql ("SELECT *\nFROM products;".data) = "SELECT *;".data ∧
      extractSql ("SELECT *\nFROM products;".data) ≠ "SELECT *\nFROM products;".data := by
  constructor
  · rfl
  · decide

/-- C5, corrected.  A raw completion that is exactly one clean single-line
SQL statement — a recognized keyword in any letter casing, a space, a
body free of newlines, interior semicolons and reasoning-tag occurrences,
and a final terminator — is returned by the extractor unchanged. -/
theorem claim_C5_single_line_unchanged (a body kw : List Char) (hkw : kw ∈ kwLC)
    (hmap : a.map lowC = kw)
    (hthk : ∀ t ∈ sufs (body ++ [';']), thinkTag t = none)
    (h2 : '\n' ∉ body) (h3 : ';' ∉ body) :
    extractSql (a ++ ' ' :: (body ++ [';'])) = a ++ ' ' :: (body ++ [';']) := by
  obtain ⟨k0, krest, rfl, hc0, hrest⟩ : ∃ k0 krest, a = k0 :: krest ∧ lowC k0 = kw.head! ∧
      krest.map lowC = kw.tail := by
    have hne : kw ≠ [] := (kwLC_facts kw hkw).1
    cases kw with
    | nil => exact absurd rfl hne
    | cons q0 qs =>
      obtain ⟨c0, p', rfl, h1', h2'⟩ := map_lowC_cons hmap
      exact ⟨c0, p', rfl, h1', h2'⟩
  exact extractSql_clean_core k0 krest body kw hkw hmap hthk h2 h3

/-- C5, witness: a lowercase statement whose body holds a `<` comparison
passes through unchanged. -/
theorem claim_C5_single_line_unchanged_witness :
    extractSql ("select * from products where price < 500;".data) =
      "select * from products where price < 500;".data := by
  have h := claim_C5_single_line_unchanged ("select".data)
    ("* from products where price < 500".data) ("select".data)
    (by decide) (by decide) (by decide) (by decide) (by decide)
  exact h

/-! ### Claim C7 -/

theorem bool_not_true {b : Bool} (h : b = false) : ¬b = true := by
  simp [h]

theorem ciLeads_neq_head {c0 q0 s0 : Char} {p' X ss : List Char}
    (hc0 : lowC c0 = q0) (hne : q0 ≠ s0) :
    ciLeads (s0 :: ss) ((c0 :: p') ++ X) = false := by
  show (ciDrop (s0 :: ss) (c0 :: (p' ++ X))).isSome = false
  simp only [ciDrop]
  rw [if_neg (by simp [hc0, hne])]
  rfl

theorem ciLeads_neq_second {c0 c1 q0 q1 s1 : Char} {p'' X ss : List Char}
    (hc0 : lowC c0 = q0) (hc1 : lowC c1 = q1) (hne : q1 ≠ s1) :
    ciLeads (q0 :: s1 :: ss) ((c0 :: c1 :: p'') ++ X) = false := by
  show (ciDrop (q0 :: s1 :: ss) (c0 :: c1 :: (p'' ++ X))).isSome = false
  simp only [ciDrop]
  rw [if_pos (by simp [hc0]), if_neg (by simp [hc1, hne])]
  rfl

/-- An aggregate-shaped column satisfies the matching branch condition of
the prettification. -/
theorem agg_cond_true {p pat : List Char} (f : List Char) (hmap : p.map lowC = pat) :
    (ciLeads pat (p ++ (f ++ [')'])) && trailsWith [')'] (p ++ (f ++ [')']))) = true := by
  rw [ciLeads_append pat p _ hmap]
  have h2 : trailsWith [')'] (p ++ (f ++ [')'])) = true := by
    rw [← List.append_assoc]
    exact trailsWith_concat ')' (p ++ f)
  rw [h2]
  rfl

theorem agg_cond_false_head {p X : List Char} {q0 s0 : Char} {qs ss : List Char}
    (hmap : p.map lowC = q0 :: qs) (hne : q0 ≠ s0) :
    (ciLeads (s0 :: ss) (p ++ X) && trailsWith [')'] (p ++ X)) = false := by
  obtain ⟨c0, p', rfl, hc0, -⟩ := map_lowC_cons hmap
  rw [ciLeads_neq_head hc0 hne]
  rfl

theorem agg_cond_false_second {p X : List Char} {q0 q1 s1 : Char} {qs ss : List Char}
    (hmap : p.map lowC = q0 :: q1 :: qs) (hne : q1 ≠ s1) :
    (ciLeads (q0 :: s1 :: ss) (p ++ X) && trailsWith [')'] (p ++ X)) = false := by
  obtain ⟨c0, p', rfl, hc0, hrest⟩ := map_lowC_cons hmap
  obtain ⟨c1, p'', rfl, hc1, -⟩ := map_lowC_cons hrest
  rw [ciLeads_neq_second hc0 hc1 hne]
  rfl

theorem aggField_slice (p f : List Char) (n : Nat) (hp : p.length = n) :
    aggField n (p ++ (f ++ [')'])) = f := by
  unfold aggField
  rw [← hp, List.drop_left, List.dropLast_concat]

/-- C7, confirmed.  The presentation step rewrites aggregate-style column
names `sum(f)`, `count(f)`, `avg(f)`, `max(f)`, `min(f)` (function prefix
case-insensitive) to "Total F", "Number of F", "Average F", "Maximum F",
"Minimum F" with `F` the field with underscores replaced by spaces and
title-cased; every other column name only gets underscores replaced and
title-casing; `SUM(stock_quantity)` displays as "Total Stock Quantity";
and the rows of the frame are passed through unchanged and in order. -/
theorem claim_C7_presentation :
    (∀ p f, p.map lowC = ['s','u','m','('] →
      cleanedColName (p ++ (f ++ [')'])) = ['T','o','t','a','l',' '] ++ titled f) ∧
    (∀ p f, p.map lowC = ['c','o','u','n','t','('] →
      cleanedColName (p ++ (f ++ [')'])) =
        ['N','u','m','b','e','r',' ','o','f',' '] ++ titled f) ∧
    (∀ p f, p.map lowC = ['a','v','g','('] →
      cleanedColName (p ++ (f ++ [')'])) = ['A','v','e','r','a','g','e',' '] ++ titled f) ∧
    (∀ p f, p.map lowC = ['m','a','x','('] →
      cleanedColName (p ++ (f ++ [')'])) = ['M','a','x','i','m','u','m',' '] ++ titled f) ∧
    (∀ p f, p.map lowC = ['m','i','n','('] →
      cleanedColName (p ++ (f ++ [')'])) = ['M','i','n','i','m','u','m',' '] ++ titled f) ∧
    (∀ col, (ciLeads ['s','u','m','('] col && trailsWith [')'] col) = false →
      (ciLeads ['c','o','u','n','t','('] col && trailsWith [')'] col) = false →
      (ciLeads ['a','v','g','('] col && trailsWith [')'] col) = false →
      (ciLeads ['m','a','x','('] col && trailsWith [')'] col) = false →
      (ciLeads ['m','i','n','('] col && trailsWith [')'] col) = false →
      cleanedColName col = titled col) ∧
    cleanedColName ("SUM(stock_quantity)".data) = ("Total Stock Quantity".data) ∧
    (∀ cols rows, presentFrame cols rows = (cols.map cleanedColNameStr, rows)) := by
  refine ⟨?_, ?_, ?_, ?_, ?_, ?_, by decide, fun cols rows => rfl⟩
  · intro p f hmap
    unfold cleanedColName
    rw [if_pos (agg_cond_true f hmap), aggField_slice p f 4 (map_lowC_length hmap)]
  · intro p f hmap
    unfold cleanedColName
    rw [if_neg (bool_not_true (agg_cond_false_head hmap (by decide))),
      if_pos (agg_cond_true f hmap), aggField_slice p f 6 (map_lowC_length hmap)]
  · intro p f hmap
    unfold cleanedColName
    rw [if_neg (bool_not_true (agg_cond_false_head hmap (by decide))),
      if_neg (bool_not_true (agg_cond_false_head hmap (by decide))),
      if_pos (agg_cond_true f hmap), aggField_slice p f 4 (map_lowC_length hmap)]
  · intro p f hmap
    unfold cleanedColName
    rw [if_neg (bool_not_true (agg_cond_false_head hmap (by decide))),
      if_neg (bool_not_true (agg_cond_false_head hmap (by decide))),
      if_neg (bool_not_true (agg_cond_false_head hmap (by decide))),
      if_pos (agg_cond_true f hmap), aggField_slice p f 4 (map_lowC_length hmap)]
  · intro p f hmap
    unfold cleanedColName
    rw [if_neg (bool_not_true (agg_cond_false_head hmap (by decide))),
      if_neg (bool_not_true (agg_cond_false_head hmap (by decide))),
      if_neg (bool_not_true (agg_cond_false_head hmap (by decide))),
      if_neg (bool_not_true (agg_cond_false_second hmap (by decide))),
      if_pos (agg_cond_true f hmap), aggField_slice p f 4 (map_lowC_length hmap)]
  · intro col h1 h2 h3 h4 h5
    unfold cleanedColName
    rw [if_neg (bool_not_true h1), if_neg (bool_not_true h2), if_neg (bool_not_true h3),
      if_neg (bool_not_true h4), if_neg (bool_not_true h5)]

/-- C7, witness at the concrete aggregate and plain column names. -/
theorem claim_C7_presentation_witness :
    cleanedColName ("SUM(".data ++ ("stock_quantity".data ++ [')'])) =
      ['T','o','t','a','l',' '] ++ titled ("stock_quantity".data) ∧
    cleanedColName ("product_name".data) = titled ("product_name".data) :=
  ⟨claim_C7_presentation.1 ("SUM(".data) ("stock_quantity".data) (by decide),
   claim_C7_presentation.2.2.2.2.2.1 ("product_name".data) (by decide) (by decide)
     (by decide) (by decide) (by decide)⟩

/-! ### Claim C8 -/

/-- C8, confirmed.  The query-execution block closes its database
connection regardless of outcome: on a database error the error message
and the invalid-statement warning are displayed and the connection is
still closed in the `finally` step, and on success the presented results
(or the empty-result notice) are displayed and the connection is closed
after fetching. -/
theorem claim_C8_connection (dbExec : String → Except String (List Row × List String))
    (sql : String) :
    (runQueryBlock dbExec sql).connOpen = false ∧
    (∀ m, dbExec sql = .error m →
      (runQueryBlock dbExec sql).msgs = [.dbError m, .invalidSqlWarning]) ∧
    (∀ rows cols, dbExec sql = .ok (rows, cols) → rows ≠ [] →
      (runQueryBlock dbExec sql).msgs =
        [.queryResults (cols.map cleanedColNameStr) rows]) ∧
    (∀ cols, dbExec sql = .ok ([], cols) → (runQueryBlock dbExec sql).msgs = [.noResults]) := by
  refine ⟨?_, ?_, ?_, ?_⟩
  · unfold runQueryBlock
    cases dbExec sql with
    | ok rc =>
      obtain ⟨rows, cols⟩ := rc
      by_cases h : rows.isEmpty = true <;> simp [h]
    | error m => simp
  · intro m hm
    unfold runQueryBlock
    rw [hm]
    simp
  · intro rows cols hok hne
    unfold runQueryBlock
    rw [hok]
    have : rows.isEmpty = false := by
      cases rows with
      | nil => exact absurd rfl hne
      | cons x xs => simp
    simp [this, presentFrame]
  · intro cols hok
    unfold runQueryBlock
    rw [hok]
    simp

/-- C8, witness on a failing statement referencing a nonexistent
column. -/
theorem claim_C8_connection_witness :
    (runQueryBlock (fun _ => .error "no such column: foo") "SELECT foo FROM products;").connOpen
      = false ∧
    (runQueryBlock (fun _ => .error "no such column: foo") "SELECT foo FROM products;").msgs =
      [.dbError "no such column: foo", .invalidSqlWarning] :=
  ⟨(claim_C8_connection (fun _ => .error "no such column: foo") "SELECT foo FROM products;").1,
   (claim_C8_connection (fun _ => .error "no such column: foo") "SELECT foo FROM products;").2.1
     "no such column: foo" rfl⟩

/-! ### Claim C9 -/

/-- C9, confirmed.  Every run of the seeding script first removes any
existing database file, then recreates the `products` table and inserts
the seven fixed sample rows; hence running it twice in succession leaves
exactly seven rows after each run. -/
theorem claim_C9_seeding (fs : Option DbFile) :
    ∃ db, runSeed fs = .ok db ∧ rowCount db = 7 ∧
      ∃ db2, runSeed (some db) = .ok db2 ∧ rowCount db2 = 7 := by
  refine ⟨⟨some sampleProducts⟩, ?_, by decide, ⟨some sampleProducts⟩, rfl, by decide⟩
  cases fs <;> rfl

/-! ### Claim C10 -/

/-- C10, confirmed.  `generate_sql_qwen` returns the empty string both
when the backend call raises and when a successful completion yields no
extractable SQL; the two failure classes produce equal return values, and
the caller's single emptiness check routes both into the same
"SQL generation failed" warning path. -/
theorem claim_C10_failure_conflation :
    (∀ e, generate_sql_qwen (.error e) = "") ∧
    (∀ raw, extractSql raw.data = [] → generate_sql_qwen (.ok raw) = "") ∧
    (∀ e raw, extractSql raw.data = [] →
      generate_sql_qwen (.error e) = generate_sql_qwen (.ok raw)) ∧
    routeGenerated "" = .genFailedWarning ∧
    (∀ e, routeGenerated (generate_sql_qwen (.error e)) = .genFailedWarning) ∧
    (∀ raw, extractSql raw.data = [] →
      routeGenerated (generate_sql_qwen (.ok raw)) = .genFailedWarning) := by
  have hgen : ∀ raw, extractSql raw.data = [] → generate_sql_qwen (.ok raw) = "" := by
    intro raw h
    show extractSqlStr raw = ""
    unfold extractSqlStr
    rw [h]
  have hroute : routeGenerated "" = .genFailedWarning := by
    unfold routeGenerated
    rw [if_pos rfl]
  refine ⟨fun e => rfl, hgen, ?_, hroute, fun e => hroute, ?_⟩
  · intro e raw h
    rw [hgen raw h]
    rfl
  · intro raw h
    rw [hgen raw h]
    exact hroute

/-- C10, witness: a backend exception and an unextractable completion
yield the same empty result and the same warning route. -/
theorem claim_C10_failure_conflation_witness :
    generate_sql_qwen (.error "connection refused") = "" ∧
    generate_sql_qwen (.ok "I am not sure how to answer that.") = "" ∧
    generate_sql_qwen (.error "connection refused") =
      generate_sql_qwen (.ok "I am not sure how to answer that.") ∧
    routeGenerated (generate_sql_qwen (.error "connection refused")) = .genFailedWarning ∧
    routeGenerated (generate_sql_qwen (.ok "I am not sure how to answer that.")) =
      .genFailedWarning :=
  ⟨claim_C10_failure_conflation.1 "connection refused",
   claim_C10_failure_conflation.2.1 "I am not sure how to answer that." (by decide),
   claim_C10_failure_conflation.2.2.1 "connection refused" "I am not sure how to answer that."
     (by decide),
   claim_C10_failure_conflation.2.2.2.2.1 "connection refused",
   claim_C10_failure_conflation.2.2.2.2.2 "I am not sure how to answer that." (by decide)⟩

end TextToSql
